import Mathlib

/-!
Verification development for the libkx repository.

Part 1 models the open-addressing hash table of `src/std/hashmap.h`
(macro template `DEFINE_HASHMAP`): tombstone-aware linear probing
(`find_entry`), `write_at`, `put`, `get`, `delete`, `resize`, and the
constructor `new`.  Keys, values, the hash function and the equality
function are parameters, exactly as the C template is parameterized by
`K_Type`, `V_Type`, `FN_HASH`, `FN_CMP`.

Conventions of the embedding:
* `usize`/`u64` values are modelled as `Nat`; the C expressions involved
  in the modelled claims never overflow on the states they are run on,
  and each place where C would wrap is noted.
* The C `asrt`/`asrt_msg` macros print a message and terminate the
  process when their condition is false (`core/msg/asrt.h`); operations
  containing such assertions are modelled in the `Option` monad, where
  `none` means the process aborted and the operation never returned.
* An EMPTY slot's `key`/`value` bytes are uninitialized garbage in C and
  are never read; the model stores `default` there.
-/

set_option maxHeartbeats 1000000

namespace KxHM

/-- Slot state, from the `T_Name##_EntryState` enum. -/
inductive EntryState
  | EMPTY
  | OCCUPIED
  | DELETED
deriving DecidableEq, Repr

/-- One hash-table slot, from the `T_Name##_Entry` struct. -/
structure Entry (K V : Type) where
  key : K
  value : V
  state : EntryState
deriving DecidableEq, Repr

instance {K V : Type} [Inhabited K] [Inhabited V] : Inhabited (Entry K V) :=
  ⟨⟨default, default, EntryState.EMPTY⟩⟩

/-- Result of the probe, from the `T_Name##_FindResult` struct. -/
structure FindResult where
  index : Nat
  found : Bool
deriving DecidableEq, Repr

/-- The hash table itself, from the `T_Name` struct.  The allocator
pointer carries no observable state and is dropped; the `entries` array
is a list whose length is the `capacity` in every reachable state. -/
structure HashMap (K V : Type) where
  entries : List (Entry K V)
  capacity : Nat
  count : Nat
deriving DecidableEq, Repr

/-- Default initial capacity `T_Name##_DEFAULT_CAPACITY`. -/
def DEFAULT_CAPACITY : Nat := 64

variable {K V : Type} [Inhabited K] [Inhabited V]

/-- The probe loop of `T_Name##_find_entry` (the `for` loop over
`i < capacity`), with the loop counter `i` and the running
`first_tombstone` value (sentinel value `capacity`) made explicit.
`steps` is the number of loop iterations left. -/
def find_entry_loop (eq : K → K → Bool) (entries : List (Entry K V))
    (capacity base : Nat) (key : K) :
    Nat → Nat → Nat → FindResult
  | 0, _, first_tombstone => ⟨first_tombstone, false⟩
  | steps + 1, i, first_tombstone =>
    let index := (base + i) % capacity
    let entry := entries.getD index default
    match entry.state with
    | EntryState.EMPTY =>
      if first_tombstone ≠ capacity then ⟨first_tombstone, false⟩
      else ⟨index, false⟩
    | EntryState.OCCUPIED =>
      if eq entry.key key then ⟨index, true⟩
      else find_entry_loop eq entries capacity base key steps (i + 1) first_tombstone
    | EntryState.DELETED =>
      find_entry_loop eq entries capacity base key steps (i + 1)
        (if first_tombstone = capacity then index else first_tombstone)

/-- `T_Name##_find_entry`.  `hash` plays `FN_HASH`; its value is the
u64 the C function returns, and `hash key % capacity` is exactly the C
`(usize)(hash % (u64)capacity)`. -/
def find_entry (hash : K → Nat) (eq : K → K → Bool) (entries : List (Entry K V))
    (capacity : Nat) (key : K) : FindResult :=
  if capacity = 0 then ⟨0, false⟩
  else find_entry_loop eq entries capacity (hash key % capacity) key capacity 0 capacity

/-- Array index visited by probe number `j`. -/
def probeIdx (capacity base j : Nat) : Nat := (base + j) % capacity

/-- The slot visited by probe number `j`. -/
def slotAt (entries : List (Entry K V)) (capacity base j : Nat) : Entry K V :=
  entries.getD (probeIdx capacity base j) default

/-- Whether a slot ends the scan: an EMPTY slot, or an OCCUPIED slot
whose key matches. -/
def stopsProbe (eq : K → K → Bool) (key : K) (e : Entry K V) : Bool :=
  match e.state with
  | EntryState.EMPTY => true
  | EntryState.OCCUPIED => eq e.key key
  | EntryState.DELETED => false

/-- Index (into the array) of the first DELETED slot among the first `n`
probes, if any. -/
def firstTombstone (entries : List (Entry K V)) (capacity base : Nat) (n : Nat) :
    Option Nat :=
  ((List.range n).find? fun j =>
      (slotAt entries capacity base j).state = EntryState.DELETED).map
    (probeIdx capacity base)

/-- Declarative description of the probe, following the specification:
scan the probe sequence for the first slot that ends the search; a
matching OCCUPIED slot is returned as found; an EMPTY slot returns the
first tombstone seen before it, else its own index; an exhausted scan
returns the first tombstone, else the sentinel `capacity`. -/
def find_entry_spec (hash : K → Nat) (eq : K → K → Bool) (entries : List (Entry K V))
    (capacity : Nat) (key : K) : FindResult :=
  if capacity = 0 then ⟨0, false⟩
  else
    match (List.range capacity).find? fun j =>
        stopsProbe eq key (slotAt entries capacity (hash key % capacity) j) with
    | some j =>
      if (slotAt entries capacity (hash key % capacity) j).state = EntryState.OCCUPIED then
        ⟨probeIdx capacity (hash key % capacity) j, true⟩
      else
        match firstTombstone entries capacity (hash key % capacity) j with
        | some t => ⟨t, false⟩
        | none => ⟨probeIdx capacity (hash key % capacity) j, false⟩
    | none =>
      match firstTombstone entries capacity (hash key % capacity) capacity with
      | some t => ⟨t, false⟩
      | none => ⟨capacity, false⟩

/-- Generalization of `firstTombstone`: first DELETED slot among probes
`i, i+1, ..., i+n-1`. -/
def firstTombFrom (entries : List (Entry K V)) (capacity base i n : Nat) :
    Option Nat :=
  ((List.range n).find? fun d =>
      (slotAt entries capacity base (i + d)).state = EntryState.DELETED).map
    fun d => probeIdx capacity base (i + d)

/-- `T_Name##_write_at`.  The C function asserts (process abort on
failure, hence `Option`) that an `is_new` write targets a non-OCCUPIED
slot and an update targets an OCCUPIED slot, bumps `count` for new
entries, then stores key, value and the OCCUPIED state. -/
def write_at (m : HashMap K V) (index : Nat) (key : K) (value : V)
    (is_new : Bool) : Option (HashMap K V) :=
  if is_new then
    if (m.entries.getD index default).state = EntryState.OCCUPIED then none
    else
      some { m with
        count := m.count + 1,
        entries := m.entries.set index ⟨key, value, EntryState.OCCUPIED⟩ }
  else
    if (m.entries.getD index default).state ≠ EntryState.OCCUPIED then none
    else
      some { m with
        entries := m.entries.set index ⟨key, value, EntryState.OCCUPIED⟩ }

/-- Loop body of `T_Name##_resize` (the re-hash of one old slot): an
OCCUPIED old entry is probed in the new array and written as a fresh
entry; the re-hash `asrt_msg(!res.found && res.index < self->capacity)`
is the `Option` guard. -/
def resize_step (hash : K → Nat) (eq : K → K → Bool) (acc : HashMap K V)
    (entry : Entry K V) : Option (HashMap K V) :=
  if entry.state = EntryState.OCCUPIED then
    let res := find_entry hash eq acc.entries acc.capacity entry.key
    if res.found = false ∧ res.index < acc.capacity then
      write_at acc res.index entry.key entry.value true
    else none
  else pure acc

/-- `T_Name##_resize`.  Doubles the capacity (default 64 from zero),
allocates a fresh all-EMPTY array, and re-inserts every OCCUPIED entry
of the old array by probing the new array directly.  The model's
allocation cannot fail (the C `return false` on OOM is out of scope). -/
def resize (hash : K → Nat) (eq : K → K → Bool) (m : HashMap K V) :
    Option (HashMap K V) :=
  m.entries.foldlM (resize_step hash eq)
    { entries := List.replicate
        (if m.capacity = 0 then DEFAULT_CAPACITY else m.capacity * 2) default,
      capacity := if m.capacity = 0 then DEFAULT_CAPACITY else m.capacity * 2,
      count := 0 }

/-- `T_Name##_put`.  The C load-factor test is
`(f64)(count + 1) > (f64)capacity * 0.75`; for any capacity below 2^51
both doubles are exact, so the comparison equals the rational test
`4 * (count + 1) > 3 * capacity` used here.  The post-resize
`asrt_msg(!res.found)` and `asrt_msg(res.index < self->capacity)` are
the `Option` guard; the OOM branch (`resize` returning false) is out of
scope as allocation cannot fail in the model. -/
def put (hash : K → Nat) (eq : K → K → Bool) (m : HashMap K V) (key : K)
    (value : V) : Option (HashMap K V) :=
  let res := find_entry hash eq m.entries m.capacity key
  if res.found then write_at m res.index key value false
  else
    if res.index = m.capacity ∨ 4 * (m.count + 1) > 3 * m.capacity then
      match resize hash eq m with
      | none => none
      | some m1 =>
        let res1 := find_entry hash eq m1.entries m1.capacity key
        if res1.found = false ∧ res1.index < m1.capacity then
          write_at m1 res1.index key value true
        else none
    else write_at m res.index key value true

/-- `T_Name##_get`. -/
def get (hash : K → Nat) (eq : K → K → Bool) (m : HashMap K V) (key : K) :
    Option V :=
  let res := find_entry hash eq m.entries m.capacity key
  if res.found then some (m.entries.getD res.index default).value else none

/-- `T_Name##_delete`: place a tombstone and decrement `count`.  The C
`self->count--` is a usize decrement; a reachable deleting state has
`count ≥ 1` (the found slot is OCCUPIED), so `Nat` subtraction agrees. -/
def delete (hash : K → Nat) (eq : K → K → Bool) (m : HashMap K V) (key : K) :
    Bool × HashMap K V :=
  let res := find_entry hash eq m.entries m.capacity key
  if res.found then
    (true,
      { m with
        entries := m.entries.set res.index
          { m.entries.getD res.index default with state := EntryState.DELETED },
        count := m.count - 1 })
  else (false, m)

/-- `T_Name##_new`: a table of `DEFAULT_CAPACITY` slots, all EMPTY
(`init_entries`), with `count = 0`.  Allocation of the struct and the
array cannot fail in the model. -/
def new : HashMap K V :=
  { entries := List.replicate DEFAULT_CAPACITY default,
    capacity := DEFAULT_CAPACITY,
    count := 0 }

/-- One public operation on the table. -/
inductive Op (K V : Type) where
  | put (key : K) (value : V)
  | get (key : K)
  | del (key : K)

/-- Apply one operation; `get` does not mutate, `delete` always
returns, `put` can abort on an assertion (`none`). -/
def applyOp (hash : K → Nat) (eq : K → K → Bool) (m : HashMap K V) :
    Op K V → Option (HashMap K V)
  | Op.put key value => put hash eq m key value
  | Op.get _ => some m
  | Op.del key => some (delete hash eq m key).2

/-- Run a sequence of operations from a starting state. -/
def runOps (hash : K → Nat) (eq : K → K → Bool) (m : HashMap K V) :
    List (Op K V) → Option (HashMap K V)
  | [] => some m
  | op :: ops =>
    match applyOp hash eq m op with
    | none => none
    | some m1 => runOps hash eq m1 ops

/-- Number of OCCUPIED slots. -/
def countOccupied (entries : List (Entry K V)) : Nat :=
  entries.countP fun e => e.state = EntryState.OCCUPIED

/-- The (key, value) pairs held in OCCUPIED slots, in array order. -/
def occupiedPairs (entries : List (Entry K V)) : List (K × V) :=
  entries.filterMap fun e =>
    if e.state = EntryState.OCCUPIED then some (e.key, e.value) else none

/-- Well-formedness: the entries array has exactly `capacity` slots and
`count` equals the number of OCCUPIED slots. -/
def WF (m : HashMap K V) : Prop :=
  m.entries.length = m.capacity ∧ m.count = countOccupied m.entries

/-- No slot of the new array is ever DELETED during the re-hash. -/
def noDeleted (entries : List (Entry K V)) : Prop :=
  ∀ e ∈ entries, e.state ≠ EntryState.DELETED

end KxHM


/-!
Part 2 models the chunked arena ("bump") allocator of
`src/std/alloc/bump.c` with its header `src/std/alloc/bump.h` and the
`Layout` descriptor of `src/core/mem/layout.h`.

Embedding conventions, in addition to the file-wide ones:
* Pointers are `Nat` addresses.  `usize`/`uptr` arithmetic that C checks
  with `__builtin_add_overflow`/`__builtin_mul_overflow` is modelled
  with explicit comparisons against `2^64`; the one unchecked place
  (`round_up_to`, whose `n + divisor - 1` may wrap) carries the
  wraparound explicitly.
* `round_up_to`/`round_down_to` mask with `~(divisor - 1)`; both assert
  `is_power_of_two(divisor)`, and for a power-of-two divisor the mask
  equals subtracting the remainder, which is the form used here.
* The `prev` chain of `ChunkFooter` is the tail of a Lean list whose
  head is the current chunk; the empty list is the shared EMPTY chunk
  sentinel (`data = ptr = the singleton's own address`, modelled as 0,
  `chunk_size = allocated_bytes = 0`).
* A C `ChunkFooter` knows its own address (the struct lives at
  `data + new_size_without_footer`); the model records that offset in
  the extra field `footer_off`, so the footer's address is
  `data + footer_off`.
* The backing allocator `sys_aligned_alloc` (a thin wrapper over the
  platform `aligned_alloc` returning an `Option`) is an oracle `Sys`:
  the list of its successive answers.  Its guarantees (alignment,
  freshness of returned blocks) appear as theorem hypotheses.
* `AllocRes.ok p` is `Some(ptr)`, `AllocRes.oom` is `None`, and
  `AllocRes.abort` is an `asrt` failure, which in C terminates the
  process.
-/

namespace KxBump

def USIZE_LIMIT : Nat := 2 ^ 64

def SIZE_MAX : Nat := USIZE_LIMIT - 1

/-- `is_power_of_two` from bump.c (the identical `_is_power_of_two` of
layout.h differs only in writing `n > 0` for `n != 0`). -/
def is_power_of_two (n : Nat) : Bool :=
  n ≠ 0 && (n &&& (n - 1)) == 0

/-- `round_up_to(n, divisor) = (n + divisor - 1) & ~(divisor - 1)` for
the asserted power-of-two divisor; the sum wraps as usize. -/
def round_up_to (n divisor : Nat) : Nat :=
  ((n + divisor - 1) % USIZE_LIMIT) - ((n + divisor - 1) % USIZE_LIMIT) % divisor

/-- `round_down_to(n, divisor) = n & ~(divisor - 1)` for the asserted
power-of-two divisor. -/
def round_down_to (n divisor : Nat) : Nat :=
  n - n % divisor

def CHUNK_ALIGN : Nat := 16

/-- `sizeof(ChunkFooter)`: five 8-byte fields on the LP64 target. -/
def SIZEOF_CHUNK_FOOTER : Nat := 40

def FOOTER_SIZE : Nat := round_up_to SIZEOF_CHUNK_FOOTER CHUNK_ALIGN

def DEFAULT_CHUNK_SIZE_WITHOUT_FOOTER : Nat := 4096 - FOOTER_SIZE

/-- The `Layout` struct of layout.h. -/
structure Layout where
  size : Nat
  align : Nat
deriving DecidableEq, Repr

/-- `layout_from_size_align`, which asserts the alignment is a power of
two (`Option` models the assert). -/
def layout_from_size_align (size align : Nat) : Option Layout :=
  if is_power_of_two align then some ⟨size, align⟩ else none

/-- The `ChunkFooter` struct; `prev` is the list structure of
`Bump.chunks` and `footer_off` records where in the buffer the footer
itself lives (see the embedding notes). -/
structure ChunkFooter where
  data : Nat
  chunk_size : Nat
  footer_off : Nat
  ptr : Nat
  allocated_bytes : Nat
deriving DecidableEq, Repr

/-- The EMPTY chunk singleton, placed at address 0 in the model. -/
def EMPTY_CHUNK : ChunkFooter :=
  { data := 0, chunk_size := 0, footer_off := 0, ptr := 0, allocated_bytes := 0 }

/-- The `Bump` struct; `chunks` is `current_chunk_footer` together with
its `prev` chain, empty list = the EMPTY sentinel; the borrowed
`backing_alloc` pointer is the `Sys` oracle threaded separately. -/
structure Bump where
  chunks : List ChunkFooter
  allocation_limit : Nat
  min_align : Nat
deriving DecidableEq, Repr

def currentFooter (b : Bump) : ChunkFooter := b.chunks.headD EMPTY_CHUNK

/-- The oracle of successive `sys_aligned_alloc` responses. -/
structure Sys where
  addrs : List (Option Nat)
deriving DecidableEq, Repr

def sys_aligned_alloc (s : Sys) : Option Nat × Sys :=
  match s.addrs with
  | [] => (none, ⟨[]⟩)
  | a :: rest => (a, ⟨rest⟩)

/-- Outcome of an allocation primitive: `Some(ptr)`, `None`, or a fatal
assertion. -/
inductive AllocRes where
  | ok (p : Nat)
  | oom
  | abort
deriving DecidableEq, Repr

/-- Store a new cursor into the current chunk footer
(`footer->ptr = result_ptr`; never reached on the sentinel). -/
def setPtr (b : Bump) (p : Nat) : Bump :=
  { b with
    chunks :=
      match b.chunks with
      | [] => []
      | c :: rest => { c with ptr := p } :: rest }

/-- Outcome of `new_chunk`. -/
inductive ChunkRes where
  | okC (c : ChunkFooter) (s : Sys)
  | oomC (s : Sys)
  | abortC
deriving DecidableEq, Repr

/-- `new_chunk` from bump.c: rounds the requested usable size to the
chunk granularity, adds the footer (overflow-checked), rounds the total
to the requested alignment (a wrap to zero is caught by the
`alloc_size == 0` test), asks the backing allocator, lays the footer at
`data + new_size_without_footer`, links `prev`, accumulates
`allocated_bytes` (usize addition), and rewinds the cursor onto the
footer rounded down to the arena's minimum alignment, asserting it does
not undershoot the buffer. -/
def new_chunk (b : Bump) (s : Sys) (new_size_without_footer align : Nat)
    (prev : ChunkFooter) : ChunkRes :=
  let nswf := round_up_to new_size_without_footer CHUNK_ALIGN
  if nswf + FOOTER_SIZE ≥ USIZE_LIMIT then ChunkRes.oomC s
  else
    let alloc_size := round_up_to (nswf + FOOTER_SIZE) align
    if alloc_size = 0 then ChunkRes.oomC s
    else
      match sys_aligned_alloc s with
      | (none, s') => ChunkRes.oomC s'
      | (some data, s') =>
        let ptr := round_down_to (data + nswf) b.min_align
        if ptr < data then ChunkRes.abortC
        else
          ChunkRes.okC
            { data := data, chunk_size := alloc_size, footer_off := nswf,
              ptr := ptr,
              allocated_bytes := (prev.allocated_bytes + nswf) % USIZE_LIMIT } s'

/-- `try_alloc_layout_fast` from bump.c. -/
def try_alloc_layout_fast (b : Bump) (layout : Layout) : AllocRes × Bump :=
  let footer := currentFooter b
  let ptr := footer.ptr
  let start := footer.data
  let min_align := b.min_align
  if ¬(b.chunks = [] ∨ ptr % min_align = 0) then (AllocRes.abort, b)
  else
    if layout.align ≤ min_align then
      if layout.size + (min_align - 1) ≥ USIZE_LIMIT then (AllocRes.oom, b)
      else
        let aligned_size := round_down_to (layout.size + (min_align - 1)) min_align
        if aligned_size > ptr - start then (AllocRes.oom, b)
        else
          let result := ptr - aligned_size
          (AllocRes.ok result, setPtr b result)
    else
      if layout.size + (layout.align - 1) ≥ USIZE_LIMIT then (AllocRes.oom, b)
      else
        let aligned_size := round_down_to (layout.size + (layout.align - 1)) layout.align
        let aligned_ptr_end := round_down_to ptr layout.align
        if aligned_ptr_end < start then (AllocRes.oom, b)
        else
          if aligned_size > aligned_ptr_end - start then (AllocRes.oom, b)
          else
            let result := aligned_ptr_end - aligned_size
            (AllocRes.ok result, setPtr b result)

/-- How much of the current chunk is usable, as the slow path computes
it (`chunk_size - FOOTER_SIZE`, zero for the sentinel). -/
def prev_usable_size (b : Bump) : Nat :=
  if b.chunks = [] then 0 else (currentFooter b).chunk_size - FOOTER_SIZE

/-- The request's size rounded up to the effective alignment
(`requested_size` in `alloc_layout_slow`; `requested_align` is the max
of the layout's alignment and the arena's minimum alignment). -/
def slow_requested_size (b : Bump) (layout : Layout) : Nat :=
  round_up_to layout.size (max layout.align b.min_align)

/-- The chunk-sizing computation of `alloc_layout_slow`: double the
previous chunk's usable size (saturating at SIZE_MAX), raise to the
default chunk size, raise to the immediate request, then clamp against
the optional allocation limit — `none` is the `return NULL` when even
the request exceeds the remaining budget. -/
def slow_target_size (b : Bump) (layout : Layout) : Option Nat :=
  let p := prev_usable_size b
  let doubled := if 2 * p ≥ USIZE_LIMIT then SIZE_MAX else 2 * p
  let s1 := if doubled < DEFAULT_CHUNK_SIZE_WITHOUT_FOOTER then
      DEFAULT_CHUNK_SIZE_WITHOUT_FOOTER
    else doubled
  let r := slow_requested_size b layout
  let s2 := if s1 < r then r else s1
  if b.allocation_limit ≠ SIZE_MAX then
    let allocated := (currentFooter b).allocated_bytes
    let remaining := if b.allocation_limit > allocated then
        b.allocation_limit - allocated
      else 0
    if s2 > remaining then
      if r > remaining then none else some r
    else some s2
  else some s2

/-- `alloc_layout_slow` from bump.c: size a fresh chunk, acquire it,
link it as the new head, and retry the bump allocation in it, with the
fast path's failure tests replaced by assertions. -/
def alloc_layout_slow (b : Bump) (s : Sys) (layout : Layout) :
    AllocRes × Bump × Sys :=
  match slow_target_size b layout with
  | none => (AllocRes.oom, b, s)
  | some nswf =>
    let chunk_align := max (max layout.align CHUNK_ALIGN) b.min_align
    match new_chunk b s nswf chunk_align (currentFooter b) with
    | ChunkRes.oomC s' => (AllocRes.oom, b, s')
    | ChunkRes.abortC => (AllocRes.abort, b, s)
    | ChunkRes.okC c s' =>
      let b1 : Bump := { b with chunks := c :: b.chunks }
      let ptr := c.ptr
      let start := c.data
      if ¬(ptr % b.min_align = 0) then (AllocRes.abort, b1, s')
      else
        if layout.align ≤ b.min_align then
          if layout.size + (b.min_align - 1) ≥ USIZE_LIMIT then (AllocRes.oom, b1, s')
          else
            let aligned_size := round_down_to (layout.size + (b.min_align - 1))
              b.min_align
            if aligned_size > ptr - start then (AllocRes.abort, b1, s')
            else
              let result := ptr - aligned_size
              if ¬(result % layout.align = 0) then (AllocRes.abort, b1, s')
              else
                if result < start then (AllocRes.abort, b1, s')
                else (AllocRes.ok result, setPtr b1 result, s')
        else
          if layout.size + (layout.align - 1) ≥ USIZE_LIMIT then (AllocRes.oom, b1, s')
          else
            let aligned_size := round_down_to (layout.size + (layout.align - 1))
              layout.align
            let aligned_ptr_end := round_down_to ptr layout.align
            if aligned_ptr_end < start then (AllocRes.abort, b1, s')
            else
              if aligned_size > aligned_ptr_end - start then (AllocRes.abort, b1, s')
              else
                let result := aligned_ptr_end - aligned_size
                if ¬(result % layout.align = 0) then (AllocRes.abort, b1, s')
                else
                  if result < start then (AllocRes.abort, b1, s')
                  else (AllocRes.ok result, setPtr b1 result, s')

/-- `bump_alloc_impl` from bump.c: zero-size requests return the cursor
rounded down (the assert inside `round_down_to` fires on a
non-power-of-two alignment); otherwise a non-power-of-two (or zero)
alignment is replaced by 1, then the fast path runs, falling back to
the slow path. -/
def bump_alloc_impl (b : Bump) (s : Sys) (layout : Layout) :
    AllocRes × Bump × Sys :=
  if layout.size = 0 then
    if is_power_of_two layout.align then
      (AllocRes.ok (round_down_to (currentFooter b).ptr layout.align), b, s)
    else (AllocRes.abort, b, s)
  else
    let layout1 := if layout.align = 0 ∨ is_power_of_two layout.align = false then
        { layout with align := 1 }
      else layout
    match try_alloc_layout_fast b layout1 with
    | (AllocRes.ok p, b') => (AllocRes.ok p, b', s)
    | (AllocRes.abort, b') => (AllocRes.abort, b', s)
    | (AllocRes.oom, _) => alloc_layout_slow b s layout1

/-- `bump_realloc_impl` from bump.c.  The fourth component records the
`memcpy` performed, as (destination, source, length); `none` means no
bytes were copied. -/
def bump_realloc_impl (b : Bump) (s : Sys) (old_ptr : Option Nat)
    (old_layout new_layout : Layout) :
    AllocRes × Bump × Sys × Option (Nat × Nat × Nat) :=
  match old_ptr with
  | none =>
    let r := bump_alloc_impl b s new_layout
    (r.1, r.2.1, r.2.2, none)
  | some op =>
    if new_layout.size = 0 then
      if is_power_of_two new_layout.align then
        (AllocRes.ok (round_down_to (currentFooter b).ptr new_layout.align), b, s,
          none)
      else (AllocRes.abort, b, s, none)
    else
      match bump_alloc_impl b s new_layout with
      | (AllocRes.ok np, b', s') =>
        let copy_size := min old_layout.size new_layout.size
        (AllocRes.ok np, b', s',
          if 0 < copy_size then some (np, op, copy_size) else none)
      | (r, b', s') => (r, b', s', none)

/-- `bump_init_min_align` from bump.c: no chunk yet, no limit
(`SIZE_MAX`), the given minimum alignment; asserts it is a power of two
not exceeding `CHUNK_ALIGN`. -/
def bump_init_min_align (min_align : Nat) : Option Bump :=
  if is_power_of_two min_align ∧ min_align ≤ CHUNK_ALIGN then
    some { chunks := [], allocation_limit := SIZE_MAX, min_align := min_align }
  else none

/-- `bump_reset` from bump.c: nothing to do on the sentinel; otherwise
the `prev` chain is released to the backing allocator (dropped from the
model state), the kept chunk's `prev` becomes the sentinel, its cursor
returns to the footer address rounded down to the minimum alignment,
and `allocated_bytes` becomes the kept chunk's own usable size (the
footer address minus the buffer start). -/
def bump_reset (b : Bump) : Bump :=
  match b.chunks with
  | [] => b
  | c :: _rest =>
    { b with
      chunks := [{ c with
        ptr := round_down_to (c.data + c.footer_off) b.min_align,
        allocated_bytes := c.footer_off }] }

/-- Run a sequence of allocations, recording each request's outcome;
`none` if any allocation aborts (process death in C). -/
def runAllocs (b : Bump) (s : Sys) :
    List Layout → Option (Bump × Sys × List (Layout × Option Nat))
  | [] => some (b, s, [])
  | l :: ls =>
    match bump_alloc_impl b s l with
    | (AllocRes.ok p, b', s') =>
      (runAllocs b' s' ls).map fun x => (x.1, x.2.1, (l, some p) :: x.2.2)
    | (AllocRes.oom, b', s') =>
      (runAllocs b' s' ls).map fun x => (x.1, x.2.1, (l, none) :: x.2.2)
    | (AllocRes.abort, _, _) => none

def goodLayout (l : Layout) : Prop :=
  (∃ j, l.align = 2 ^ j) ∧ 0 < l.size ∧ l.align < USIZE_LIMIT

def ChunkWF (c : ChunkFooter) : Prop :=
  c.data ≤ c.ptr ∧ c.ptr ≤ c.data + c.footer_off ∧
    c.footer_off + FOOTER_SIZE ≤ c.chunk_size

/-- The (address, size) block of memory owned by a chunk. -/
def blockOf (c : ChunkFooter) : Nat × Nat := (c.data, c.chunk_size)

/-- Two (address, length) ranges are disjoint. -/
def disjoint2 (x y : Nat × Nat) : Prop := x.1 + x.2 ≤ y.1 ∨ y.1 + y.2 ≤ x.1

/-- The chunk blocks of an arena, newest first. -/
def chainBlocks (b : Bump) : List (Nat × Nat) := b.chunks.map blockOf

/-- The arena chunks occupy pairwise disjoint memory blocks (true of real
executions because sys_aligned_alloc returns fresh memory; here it is a
hypothesis on the oracle-produced final state). -/
def chunksDisjoint (b : Bump) : Prop :=
  b.chunks.Pairwise fun c1 c2 => disjoint2 (blockOf c1) (blockOf c2)

/-- Range r lies inside the used region of some chunk of b. -/
def coveredBy (b : Bump) (r : Nat × Nat) : Prop :=
  ∃ c ∈ b.chunks, c.ptr ≤ r.1 ∧ r.1 + r.2 ≤ c.data + c.footer_off

/-- The (pointer, size) ranges of the successful allocations in a run log. -/
def okRanges (out : List (Layout × Option Nat)) : List (Nat × Nat) :=
  out.filterMap fun e => e.2.map fun p => (p, e.1.size)

end KxBump

namespace KxHM

variable {K V : Type} [Inhabited K] [Inhabited V]

/-- Peeling one element off a `find?` over `List.range`. -/
theorem rangeFind_succ (p : Nat → Bool) (n : Nat) :
    (List.range (n + 1)).find? p =
      match p 0 with
      | true => some 0
      | false => ((List.range n).find? fun d => p (d + 1)).map Nat.succ := by
  rw [List.range_succ_eq_map, List.find?_cons]
  cases hp : p 0 with
  | true => rfl
  | false => rw [List.find?_map]; rfl

/-- `find?` only depends on the predicate's values on the list. -/
theorem find?_congr' {α : Type} (l : List α) {p q : α → Bool}
    (h : ∀ a ∈ l, p a = q a) : l.find? p = l.find? q := by
  induction l with
  | nil => rfl
  | cons a l ih =>
    rw [List.find?_cons, List.find?_cons, h a (List.mem_cons_self a l),
      ih fun b hb => h b (List.mem_cons_of_mem a hb)]

/-- Characterization of `find?` over `List.range`: the least index
satisfying the predicate. -/
theorem rangeFind_eq_some_iff (p : Nat → Bool) (n j : Nat) :
    (List.range n).find? p = some j ↔
      j < n ∧ p j = true ∧ ∀ d, d < j → p d = false := by
  induction n generalizing p j with
  | zero => simp [List.range_zero]
  | succ n ih =>
    rw [rangeFind_succ]
    cases hp : p 0 with
    | true =>
      simp only [Option.some.injEq]
      constructor
      · rintro rfl
        exact ⟨Nat.succ_pos n, hp, fun d hd => absurd hd (Nat.not_lt_zero d)⟩
      · rintro ⟨-, hj, hmin⟩
        by_contra hne
        have h0 : 0 < j := Nat.pos_of_ne_zero fun h => hne h.symm
        exact absurd hp (by rw [hmin 0 h0]; exact Bool.false_ne_true)
    | false =>
      simp only [Option.map_eq_some']
      constructor
      · rintro ⟨j', hj', rfl⟩
        obtain ⟨h1, h2, h3⟩ := (ih _ j').mp hj'
        refine ⟨Nat.succ_lt_succ h1, h2, fun d hd => ?_⟩
        match d with
        | 0 => exact hp
        | d + 1 => exact h3 d (Nat.lt_of_succ_lt_succ hd)
      · rintro ⟨h1, h2, h3⟩
        match j with
        | 0 => exact absurd h2 (by rw [hp]; exact Bool.false_ne_true)
        | j + 1 =>
          refine ⟨j, (ih _ j).mpr ⟨Nat.lt_of_succ_lt_succ h1, h2,
            fun d hd => h3 (d + 1) (Nat.succ_lt_succ hd)⟩, rfl⟩

/-- `find?` over `List.range` misses exactly when no index qualifies. -/
theorem rangeFind_eq_none_iff (p : Nat → Bool) (n : Nat) :
    (List.range n).find? p = none ↔ ∀ d, d < n → p d = false := by
  rw [List.find?_eq_none]
  constructor
  · exact fun h d hd => Bool.eq_false_iff.mpr (h d (List.mem_range.mpr hd))
  · exact fun h d hd => Bool.eq_false_iff.mp (h d (List.mem_range.mp hd))

theorem firstTombstone_eq_from (entries : List (Entry K V)) (capacity base n : Nat) :
    firstTombstone entries capacity base n = firstTombFrom entries capacity base 0 n := by
  unfold firstTombstone firstTombFrom
  rw [find?_congr' (List.range n)
    (q := fun d => decide ((slotAt entries capacity base (0 + d)).state = EntryState.DELETED))
    (fun d _ => by simp only [Nat.zero_add])]
  cases ((List.range n).find? fun d =>
      (slotAt entries capacity base (0 + d)).state = EntryState.DELETED) with
  | none => rfl
  | some d => simp [Nat.zero_add]

theorem firstTombFrom_zero (entries : List (Entry K V)) (capacity base i : Nat) :
    firstTombFrom entries capacity base i 0 = none := rfl

theorem firstTombFrom_succ (entries : List (Entry K V)) (capacity base i n : Nat) :
    firstTombFrom entries capacity base i (n + 1) =
      if (slotAt entries capacity base i).state = EntryState.DELETED then
        some (probeIdx capacity base i)
      else firstTombFrom entries capacity base (i + 1) n := by
  unfold firstTombFrom
  rw [rangeFind_succ]
  by_cases h : (slotAt entries capacity base i).state = EntryState.DELETED
  · have : (decide ((slotAt entries capacity base (i + 0)).state = EntryState.DELETED)) = true := by
      simpa using h
    rw [this]
    simp [h]
  · have : (decide ((slotAt entries capacity base (i + 0)).state = EntryState.DELETED)) = false := by
      simpa using h
    rw [this]
    simp only [if_neg h]
    rw [find?_congr' (List.range n)
      (q := fun d => decide ((slotAt entries capacity base ((i + 1) + d)).state = EntryState.DELETED))
      (fun d _ => by rw [show i + (d + 1) = (i + 1) + d by omega])]
    cases ((List.range n).find? fun d =>
        (slotAt entries capacity base ((i + 1) + d)).state = EntryState.DELETED) with
    | none => rfl
    | some d => simp [Option.map_map]; rw [show i + (d + 1) = (i + 1) + d by omega]

theorem probeIdx_lt (capacity base j : Nat) (hcap : 0 < capacity) :
    probeIdx capacity base j < capacity :=
  Nat.mod_lt _ hcap

/-- The probe loop computes the declarative description: its result is
determined by the first stopping probe, the accumulated tombstone, and
the first tombstone among the scanned probes. -/
theorem find_entry_loop_eq (eq : K → K → Bool) (entries : List (Entry K V))
    (capacity base : Nat) (key : K) (hcap : 0 < capacity) :
    ∀ (steps i ft : Nat),
    find_entry_loop eq entries capacity base key steps i ft =
      match (List.range steps).find? fun d =>
          stopsProbe eq key (slotAt entries capacity base (i + d)) with
      | some d =>
        if (slotAt entries capacity base (i + d)).state = EntryState.OCCUPIED then
          ⟨probeIdx capacity base (i + d), true⟩
        else
          ⟨if ft ≠ capacity then ft
            else (firstTombFrom entries capacity base i d).getD
              (probeIdx capacity base (i + d)), false⟩
      | none =>
        ⟨if ft ≠ capacity then ft
          else (firstTombFrom entries capacity base i steps).getD capacity, false⟩ := by
  intro steps
  induction steps with
  | zero =>
    intro i ft
    by_cases hft : ft = capacity <;>
      simp [find_entry_loop, List.range_zero, firstTombFrom_zero, hft]
  | succ steps ih =>
    intro i ft
    have hslot0 : slotAt entries capacity base (i + 0) = slotAt entries capacity base i := by
      rw [Nat.add_zero]
    cases he : (slotAt entries capacity base i).state with
    | EMPTY =>
      have hp0 : stopsProbe eq key (slotAt entries capacity base (i + 0)) = true := by
        rw [hslot0]; unfold stopsProbe; rw [he]
      have hfind1 : ((List.range (steps + 1)).find? fun d =>
          stopsProbe eq key (slotAt entries capacity base (i + d))) = some 0 := by
        rw [rangeFind_succ]; simp only [hp0]
      have hL : find_entry_loop eq entries capacity base key (steps + 1) i ft =
          if ft ≠ capacity then ⟨ft, false⟩
          else ⟨probeIdx capacity base i, false⟩ := by
        unfold find_entry_loop
        simp only [show (entries.getD ((base + i) % capacity) default).state =
          EntryState.EMPTY from he]
        try rfl
      rw [hL]
      simp only [hfind1, Nat.add_zero, he, firstTombFrom_zero]
      by_cases hft : ft = capacity <;> simp [hft, probeIdx]
    | OCCUPIED =>
      cases heq : eq (slotAt entries capacity base i).key key with
      | true =>
        have hp0 : stopsProbe eq key (slotAt entries capacity base (i + 0)) = true := by
          rw [hslot0]; unfold stopsProbe; rw [he]; exact heq
        have hfind1 : ((List.range (steps + 1)).find? fun d =>
            stopsProbe eq key (slotAt entries capacity base (i + d))) = some 0 := by
          rw [rangeFind_succ]; simp only [hp0]
        have hL : find_entry_loop eq entries capacity base key (steps + 1) i ft =
            ⟨probeIdx capacity base i, true⟩ := by
          conv_lhs => rw [find_entry_loop]
          simp only [show (entries.getD ((base + i) % capacity) default).state =
            EntryState.OCCUPIED from he,
            show eq (entries.getD ((base + i) % capacity) default).key key = true from heq]
          try rfl
          try simp [probeIdx]
        rw [hL]
        simp only [hfind1, Nat.add_zero, he]
        simp
      | false =>
        have hp0 : stopsProbe eq key (slotAt entries capacity base (i + 0)) = false := by
          rw [hslot0]; unfold stopsProbe; rw [he]; exact heq
        have hfind1 : ((List.range (steps + 1)).find? fun d =>
            stopsProbe eq key (slotAt entries capacity base (i + d))) =
            ((List.range steps).find? fun d =>
              stopsProbe eq key (slotAt entries capacity base (i + (d + 1)))).map Nat.succ := by
          rw [rangeFind_succ]; simp only [hp0]
        have hL : find_entry_loop eq entries capacity base key (steps + 1) i ft =
            find_entry_loop eq entries capacity base key steps (i + 1) ft := by
          conv_lhs => rw [find_entry_loop]
          simp only [show (entries.getD ((base + i) % capacity) default).state =
            EntryState.OCCUPIED from he,
            show eq (entries.getD ((base + i) % capacity) default).key key = false from heq]
          try rfl
          try simp
        have hnd : ¬(slotAt entries capacity base i).state = EntryState.DELETED := by
          rw [he]; intro h; cases h
        rw [hL, ih (i + 1) ft]
        rw [find?_congr' (List.range steps)
          (p := fun d => stopsProbe eq key (slotAt entries capacity base ((i + 1) + d)))
          (q := fun d => stopsProbe eq key (slotAt entries capacity base (i + (d + 1))))
          (fun d _ => by
            show stopsProbe eq key (slotAt entries capacity base ((i + 1) + d)) =
              stopsProbe eq key (slotAt entries capacity base (i + (d + 1)))
            rw [show (i + 1) + d = i + (d + 1) by omega])]
        simp only [hfind1]
        cases hfind : (List.range steps).find? fun d =>
            stopsProbe eq key (slotAt entries capacity base (i + (d + 1))) with
        | none =>
          simp only [Option.map_none']
          rw [firstTombFrom_succ, if_neg hnd]
        | some d =>
          simp only [Option.map_some']
          rw [firstTombFrom_succ, if_neg hnd]
          have hidx : i + Nat.succ d = (i + 1) + d := by omega
          simp only [hidx]
    | DELETED =>
      have hp0 : stopsProbe eq key (slotAt entries capacity base (i + 0)) = false := by
        rw [hslot0]; unfold stopsProbe; rw [he]
      have hfind1 : ((List.range (steps + 1)).find? fun d =>
          stopsProbe eq key (slotAt entries capacity base (i + d))) =
          ((List.range steps).find? fun d =>
            stopsProbe eq key (slotAt entries capacity base (i + (d + 1)))).map Nat.succ := by
        rw [rangeFind_succ]; simp only [hp0]
      have hL : find_entry_loop eq entries capacity base key (steps + 1) i ft =
          find_entry_loop eq entries capacity base key steps (i + 1)
            (if ft = capacity then (base + i) % capacity else ft) := by
        conv_lhs => rw [find_entry_loop]
        simp only [show (entries.getD ((base + i) % capacity) default).state =
          EntryState.DELETED from he]
        try rfl
        try simp
      have hd : (slotAt entries capacity base i).state = EntryState.DELETED := he
      have hne : (base + i) % capacity ≠ capacity := Nat.ne_of_lt (Nat.mod_lt _ hcap)
      rw [hL, ih (i + 1) _]
      rw [find?_congr' (List.range steps)
        (p := fun d => stopsProbe eq key (slotAt entries capacity base ((i + 1) + d)))
        (q := fun d => stopsProbe eq key (slotAt entries capacity base (i + (d + 1))))
        (fun d _ => by
          show stopsProbe eq key (slotAt entries capacity base ((i + 1) + d)) =
            stopsProbe eq key (slotAt entries capacity base (i + (d + 1)))
          rw [show (i + 1) + d = i + (d + 1) by omega])]
      simp only [hfind1]
      by_cases hft : ft = capacity
      · cases hfind : (List.range steps).find? fun d =>
            stopsProbe eq key (slotAt entries capacity base (i + (d + 1))) with
        | none =>
          simp only [Option.map_none']
          rw [firstTombFrom_succ, if_pos hd]
          simp only [hft, if_pos rfl]
          simp [hne, probeIdx]
        | some d =>
          simp only [Option.map_some']
          rw [firstTombFrom_succ, if_pos hd]
          have hidx : i + Nat.succ d = (i + 1) + d := by omega
          simp only [hidx, hft, if_pos rfl]
          simp [hne, probeIdx]
      · cases hfind : (List.range steps).find? fun d =>
            stopsProbe eq key (slotAt entries capacity base (i + (d + 1))) with
        | none =>
          simp only [Option.map_none']
          simp [hft]
        | some d =>
          simp only [Option.map_some']
          have hidx : i + Nat.succ d = (i + 1) + d := by omega
          simp only [hidx]
          simp [hft]

/-- The C probe function equals its declarative description. -/
theorem find_entry_eq_spec (hash : K → Nat) (eq : K → K → Bool)
    (entries : List (Entry K V)) (capacity : Nat) (key : K) :
    find_entry hash eq entries capacity key =
      find_entry_spec hash eq entries capacity key := by
  unfold find_entry find_entry_spec
  by_cases hcap : capacity = 0
  · rw [if_pos hcap, if_pos hcap]
  · rw [if_neg hcap, if_neg hcap]
    have hcap' : 0 < capacity := Nat.pos_of_ne_zero hcap
    rw [find_entry_loop_eq eq entries capacity (hash key % capacity) key hcap' capacity 0
      capacity]
    rw [find?_congr' (List.range capacity)
      (p := fun d => stopsProbe eq key (slotAt entries capacity (hash key % capacity) (0 + d)))
      (q := fun d => stopsProbe eq key (slotAt entries capacity (hash key % capacity) d))
      (fun d _ => by
        show stopsProbe eq key (slotAt entries capacity (hash key % capacity) (0 + d)) =
          stopsProbe eq key (slotAt entries capacity (hash key % capacity) d)
        rw [Nat.zero_add])]
    rw [firstTombstone_eq_from]
    cases hfind : (List.range capacity).find? fun d =>
        stopsProbe eq key (slotAt entries capacity (hash key % capacity) d) with
    | none =>
      simp only [if_neg (fun h : capacity ≠ capacity => h rfl)]
      cases hts : firstTombFrom entries capacity (hash key % capacity) 0 capacity with
      | none => rfl
      | some t => rfl
    | some j =>
      have hj0 : (0 : Nat) + j = j := Nat.zero_add j
      simp only [hj0]
      by_cases hocc : (slotAt entries capacity (hash key % capacity) j).state =
          EntryState.OCCUPIED
      · rw [if_pos hocc, if_pos hocc]
      · rw [if_neg hocc, if_neg hocc]
        simp only [if_neg (fun h : capacity ≠ capacity => h rfl)]
        have hzero : firstTombFrom entries capacity (hash key % capacity) 0 j =
            firstTombstone entries capacity (hash key % capacity) j := by
          rw [firstTombstone_eq_from]
        rw [hzero]
        cases hts : firstTombstone entries capacity (hash key % capacity) j with
        | none => rfl
        | some t => rfl

/-- A successful probe lands on an OCCUPIED slot, in range, whose key
matches. -/
theorem find_entry_found (hash : K → Nat) (eq : K → K → Bool)
    (entries : List (Entry K V)) (capacity : Nat) (key : K)
    (h : (find_entry hash eq entries capacity key).found = true) :
    (find_entry hash eq entries capacity key).index < capacity ∧
      (entries.getD (find_entry hash eq entries capacity key).index default).state =
        EntryState.OCCUPIED ∧
      eq (entries.getD (find_entry hash eq entries capacity key).index default).key key =
        true := by
  rw [find_entry_eq_spec] at h ⊢
  by_cases hcap : capacity = 0
  · rw [show find_entry_spec hash eq entries capacity key = ⟨0, false⟩ from by
      unfold find_entry_spec; rw [if_pos hcap]] at h
    cases h
  · have hcap' : 0 < capacity := Nat.pos_of_ne_zero hcap
    cases hfind : (List.range capacity).find? fun j =>
        stopsProbe eq key (slotAt entries capacity (hash key % capacity) j) with
    | none =>
      exfalso
      cases hts : firstTombstone entries capacity (hash key % capacity) capacity with
      | none =>
        rw [show find_entry_spec hash eq entries capacity key = ⟨capacity, false⟩ from by
          unfold find_entry_spec; rw [if_neg hcap]; simp only [hfind, hts]] at h
        cases h
      | some t =>
        rw [show find_entry_spec hash eq entries capacity key = ⟨t, false⟩ from by
          unfold find_entry_spec; rw [if_neg hcap]; simp only [hfind, hts]] at h
        cases h
    | some j =>
      by_cases hocc : (slotAt entries capacity (hash key % capacity) j).state =
          EntryState.OCCUPIED
      · have hval : find_entry_spec hash eq entries capacity key =
            ⟨probeIdx capacity (hash key % capacity) j, true⟩ := by
          unfold find_entry_spec
          rw [if_neg hcap]
          simp only [hfind, hocc, if_pos]
        rw [hval]
        have hstops := List.find?_some hfind
        have heq : eq (slotAt entries capacity (hash key % capacity) j).key key = true := by
          unfold stopsProbe at hstops
          rw [hocc] at hstops
          simpa using hstops
        exact ⟨probeIdx_lt capacity _ j hcap', hocc, heq⟩
      · exfalso
        cases hts : firstTombstone entries capacity (hash key % capacity) j with
        | none =>
          rw [show find_entry_spec hash eq entries capacity key =
              ⟨probeIdx capacity (hash key % capacity) j, false⟩ from by
            unfold find_entry_spec; rw [if_neg hcap]; simp only [hfind, hts, if_neg hocc]] at h
          cases h
        | some t =>
          rw [show find_entry_spec hash eq entries capacity key = ⟨t, false⟩ from by
            unfold find_entry_spec; rw [if_neg hcap]; simp only [hfind, hts, if_neg hocc]] at h
          cases h

theorem find_entry_of_stop_occ (hash : K → Nat) (eq : K → K → Bool)
    (entries : List (Entry K V)) (capacity : Nat) (key : K) (j : Nat)
    (hcap : capacity ≠ 0)
    (hfind : ((List.range capacity).find? fun d =>
      stopsProbe eq key (slotAt entries capacity (hash key % capacity) d)) = some j)
    (hocc : (slotAt entries capacity (hash key % capacity) j).state =
      EntryState.OCCUPIED) :
    find_entry hash eq entries capacity key =
      ⟨probeIdx capacity (hash key % capacity) j, true⟩ := by
  rw [find_entry_eq_spec]
  unfold find_entry_spec
  rw [if_neg hcap]
  simp only [hfind, hocc, if_pos]

theorem find_entry_of_stop_nonocc (hash : K → Nat) (eq : K → K → Bool)
    (entries : List (Entry K V)) (capacity : Nat) (key : K) (j : Nat)
    (hcap : capacity ≠ 0)
    (hfind : ((List.range capacity).find? fun d =>
      stopsProbe eq key (slotAt entries capacity (hash key % capacity) d)) = some j)
    (hocc : ¬(slotAt entries capacity (hash key % capacity) j).state =
      EntryState.OCCUPIED) :
    find_entry hash eq entries capacity key =
      ⟨(firstTombstone entries capacity (hash key % capacity) j).getD
        (probeIdx capacity (hash key % capacity) j), false⟩ := by
  rw [find_entry_eq_spec]
  unfold find_entry_spec
  rw [if_neg hcap]
  cases hts : firstTombstone entries capacity (hash key % capacity) j with
  | none => simp only [hfind, hts, if_neg hocc, Option.getD_none]
  | some t => simp only [hfind, hts, if_neg hocc, Option.getD_some]

theorem find_entry_of_none (hash : K → Nat) (eq : K → K → Bool)
    (entries : List (Entry K V)) (capacity : Nat) (key : K)
    (hcap : capacity ≠ 0)
    (hfind : ((List.range capacity).find? fun d =>
      stopsProbe eq key (slotAt entries capacity (hash key % capacity) d)) = none) :
    find_entry hash eq entries capacity key =
      ⟨(firstTombstone entries capacity (hash key % capacity) capacity).getD capacity,
        false⟩ := by
  rw [find_entry_eq_spec]
  unfold find_entry_spec
  rw [if_neg hcap]
  cases hts : firstTombstone entries capacity (hash key % capacity) capacity with
  | none => simp only [hfind, hts, Option.getD_none]
  | some t => simp only [hfind, hts, Option.getD_some]

theorem firstTombstone_some_state (entries : List (Entry K V)) (capacity base n t : Nat)
    (hts : firstTombstone entries capacity base n = some t) :
    (entries.getD t default).state = EntryState.DELETED := by
  unfold firstTombstone at hts
  rw [Option.map_eq_some'] at hts
  obtain ⟨d, hd, rfl⟩ := hts
  have hp := List.find?_some hd
  unfold slotAt at hp
  simpa using hp

theorem firstTombstone_some_lt (entries : List (Entry K V)) (capacity base n t : Nat)
    (hcap : 0 < capacity)
    (hts : firstTombstone entries capacity base n = some t) : t < capacity := by
  unfold firstTombstone at hts
  rw [Option.map_eq_some'] at hts
  obtain ⟨d, _, rfl⟩ := hts
  exact probeIdx_lt capacity base d hcap

/-- The probe's result index never exceeds `capacity` (with `capacity`
itself the explicit full-table sentinel). -/
theorem find_entry_index_le (hash : K → Nat) (eq : K → K → Bool)
    (entries : List (Entry K V)) (capacity : Nat) (key : K) :
    (find_entry hash eq entries capacity key).index ≤ capacity := by
  by_cases hcap : capacity = 0
  · unfold find_entry
    rw [if_pos hcap]
    exact Nat.le_of_eq hcap.symm
  · have hcap' : 0 < capacity := Nat.pos_of_ne_zero hcap
    cases hfind : (List.range capacity).find? fun d =>
        stopsProbe eq key (slotAt entries capacity (hash key % capacity) d) with
    | none =>
      rw [find_entry_of_none hash eq entries capacity key hcap hfind]
      cases hts : firstTombstone entries capacity (hash key % capacity) capacity with
      | none => simp
      | some t =>
        simp only [Option.getD_some]
        exact Nat.le_of_lt (firstTombstone_some_lt entries capacity _ _ t hcap' hts)
    | some j =>
      by_cases hocc : (slotAt entries capacity (hash key % capacity) j).state =
          EntryState.OCCUPIED
      · rw [find_entry_of_stop_occ hash eq entries capacity key j hcap hfind hocc]
        exact Nat.le_of_lt (probeIdx_lt capacity _ j hcap')
      · rw [find_entry_of_stop_nonocc hash eq entries capacity key j hcap hfind hocc]
        cases hts : firstTombstone entries capacity (hash key % capacity) j with
        | none =>
          simp only [hts, Option.getD_none]
          exact Nat.le_of_lt (probeIdx_lt capacity _ j hcap')
        | some t =>
          simp only [hts, Option.getD_some]
          exact Nat.le_of_lt (firstTombstone_some_lt entries capacity _ _ t hcap' hts)

/-- An unsuccessful probe whose index is a real slot points at an EMPTY
or DELETED slot (the insertion target). -/
theorem find_entry_not_found_slot (hash : K → Nat) (eq : K → K → Bool)
    (entries : List (Entry K V)) (capacity : Nat) (key : K)
    (h : (find_entry hash eq entries capacity key).found = false)
    (hidx : (find_entry hash eq entries capacity key).index < capacity) :
    (entries.getD (find_entry hash eq entries capacity key).index default).state =
        EntryState.EMPTY ∨
      (entries.getD (find_entry hash eq entries capacity key).index default).state =
        EntryState.DELETED := by
  by_cases hcap : capacity = 0
  · rw [hcap] at hidx
    cases hidx
  · have hcap' : 0 < capacity := Nat.pos_of_ne_zero hcap
    cases hfind : (List.range capacity).find? fun d =>
        stopsProbe eq key (slotAt entries capacity (hash key % capacity) d) with
    | none =>
      rw [find_entry_of_none hash eq entries capacity key hcap hfind] at hidx ⊢
      cases hts : firstTombstone entries capacity (hash key % capacity) capacity with
      | none =>
        rw [hts] at hidx
        simp only [Option.getD_none] at hidx
        exact absurd rfl (Nat.ne_of_lt hidx)
      | some t =>
        simp only [Option.getD_some]
        exact Or.inr (firstTombstone_some_state entries capacity _ _ t hts)
    | some j =>
      by_cases hocc : (slotAt entries capacity (hash key % capacity) j).state =
          EntryState.OCCUPIED
      · rw [find_entry_of_stop_occ hash eq entries capacity key j hcap hfind hocc] at h
        cases h
      · rw [find_entry_of_stop_nonocc hash eq entries capacity key j hcap hfind hocc] at hidx ⊢
        cases hts : firstTombstone entries capacity (hash key % capacity) j with
        | none =>
          simp only [Option.getD_none]
          have hstops := List.find?_some hfind
          unfold stopsProbe at hstops
          left
          cases hstate : (slotAt entries capacity (hash key % capacity) j).state with
          | EMPTY => exact hstate
          | OCCUPIED => exact absurd hstate hocc
          | DELETED => rw [hstate] at hstops; cases hstops
        | some t =>
          simp only [Option.getD_some]
          exact Or.inr (firstTombstone_some_state entries capacity _ _ t hts)

/-- If no slot of the array holds an OCCUPIED entry whose key matches,
the probe reports not-found. -/
theorem find_entry_no_match (hash : K → Nat) (eq : K → K → Bool)
    (entries : List (Entry K V)) (capacity : Nat) (key : K)
    (hlen : entries.length = capacity)
    (hnone : ∀ e ∈ entries, ¬(e.state = EntryState.OCCUPIED ∧ eq e.key key = true)) :
    (find_entry hash eq entries capacity key).found = false := by
  by_contra hfound
  have hfound' : (find_entry hash eq entries capacity key).found = true := by
    cases hb : (find_entry hash eq entries capacity key).found
    · exact absurd hb hfound
    · rfl
  obtain ⟨hlt, hocc, heq⟩ := find_entry_found hash eq entries capacity key hfound'
  have hltlen : (find_entry hash eq entries capacity key).index < entries.length := by
    rw [hlen]; exact hlt
  have hmem : entries.getD (find_entry hash eq entries capacity key).index default ∈
      entries := by
    rw [List.getD_eq_getElem?_getD, List.getElem?_eq_getElem hltlen]
    exact List.getElem_mem hltlen
  exact hnone _ hmem ⟨hocc, heq⟩

theorem countOccupied_replicate (n : Nat) :
    countOccupied (List.replicate n (default : Entry K V)) = 0 := by
  unfold countOccupied
  induction n with
  | zero => rfl
  | succ n ih => simp [List.replicate_succ, List.countP_cons, ih, Inhabited.default]

theorem WF_new : WF (new : HashMap K V) := by
  constructor
  · simp [new, DEFAULT_CAPACITY]
  · simp [new, countOccupied_replicate]

theorem countOccupied_set (entries : List (Entry K V)) (i : Nat) (e : Entry K V)
    (h : i < entries.length) :
    countOccupied (entries.set i e) +
        (if (entries.getD i default).state = EntryState.OCCUPIED then 1 else 0) =
      countOccupied entries + (if e.state = EntryState.OCCUPIED then 1 else 0) := by
  unfold countOccupied
  rw [List.countP_set _ _ _ _ h]
  have hgd : entries.getD i default = entries[i] := by
    rw [List.getD_eq_getElem?_getD, List.getElem?_eq_getElem h]
    rfl
  rw [hgd]
  simp only [decide_eq_true_eq]
  by_cases hocc : entries[i].state = EntryState.OCCUPIED
  · have hcount : 0 < entries.countP fun e => e.state = EntryState.OCCUPIED := by
      rw [List.countP_pos_iff]
      exact ⟨entries[i], List.getElem_mem h, by simpa using hocc⟩
    simp only [hocc, if_pos trivial]
    omega
  · simp only [if_neg hocc]
    omega

theorem write_at_true_some (m : HashMap K V) (index : Nat) (key : K) (value : V)
    (m' : HashMap K V) (h : write_at m index key value true = some m') :
    (m.entries.getD index default).state ≠ EntryState.OCCUPIED ∧
      m' = { m with
        count := m.count + 1,
        entries := m.entries.set index ⟨key, value, EntryState.OCCUPIED⟩ } := by
  unfold write_at at h
  by_cases hocc : (m.entries.getD index default).state = EntryState.OCCUPIED
  · rw [if_pos rfl, if_pos hocc] at h
    cases h
  · rw [if_pos rfl, if_neg hocc] at h
    exact ⟨hocc, ((Option.some.injEq _ _).mp h).symm⟩

theorem write_at_false_some (m : HashMap K V) (index : Nat) (key : K) (value : V)
    (m' : HashMap K V) (h : write_at m index key value false = some m') :
    (m.entries.getD index default).state = EntryState.OCCUPIED ∧
      m' = { m with
        entries := m.entries.set index ⟨key, value, EntryState.OCCUPIED⟩ } := by
  unfold write_at at h
  by_cases hocc : (m.entries.getD index default).state = EntryState.OCCUPIED
  · rw [if_neg (by exact Bool.noConfusion), if_neg (by simpa using hocc)] at h
    exact ⟨hocc, ((Option.some.injEq _ _).mp h).symm⟩
  · rw [if_neg (by exact Bool.noConfusion), if_pos (by simpa using hocc)] at h
    cases h

theorem write_at_true_WF (m : HashMap K V) (index : Nat) (key : K) (value : V)
    (m' : HashMap K V) (hwf : WF m) (hidx : index < m.capacity)
    (h : write_at m index key value true = some m') :
    WF m' ∧ m'.capacity = m.capacity ∧ m'.count = m.count + 1 := by
  obtain ⟨hlen, hcount⟩ := hwf
  obtain ⟨hocc, rfl⟩ := write_at_true_some m index key value m' h
  have hidx' : index < m.entries.length := by rw [hlen]; exact hidx
  have hset := countOccupied_set m.entries index ⟨key, value, EntryState.OCCUPIED⟩ hidx'
  rw [if_neg hocc, if_pos (show (Entry.mk key value EntryState.OCCUPIED).state =
    EntryState.OCCUPIED from rfl)] at hset
  refine ⟨⟨by simpa using hlen, ?_⟩, rfl, rfl⟩
  show m.count + 1 = countOccupied (m.entries.set index ⟨key, value, EntryState.OCCUPIED⟩)
  omega

theorem write_at_false_WF (m : HashMap K V) (index : Nat) (key : K) (value : V)
    (m' : HashMap K V) (hwf : WF m) (hidx : index < m.capacity)
    (h : write_at m index key value false = some m') :
    WF m' ∧ m'.capacity = m.capacity ∧ m'.count = m.count := by
  obtain ⟨hlen, hcount⟩ := hwf
  obtain ⟨hocc, rfl⟩ := write_at_false_some m index key value m' h
  have hidx' : index < m.entries.length := by rw [hlen]; exact hidx
  have hset := countOccupied_set m.entries index ⟨key, value, EntryState.OCCUPIED⟩ hidx'
  rw [if_pos hocc, if_pos (show (Entry.mk key value EntryState.OCCUPIED).state =
    EntryState.OCCUPIED from rfl)] at hset
  refine ⟨⟨by simpa using hlen, ?_⟩, rfl, rfl⟩
  show m.count = countOccupied (m.entries.set index ⟨key, value, EntryState.OCCUPIED⟩)
  omega

/-- Folding a fallible step preserves an invariant of each step. -/
theorem foldlM_preserve {α β : Type} (f : β → α → Option β) (P : β → Prop)
    (hstep : ∀ acc x out, P acc → f acc x = some out → P out) :
    ∀ (l : List α) (acc out : β), P acc → l.foldlM f acc = some out → P out := by
  intro l
  induction l with
  | nil =>
    intro acc out hP hfold
    simp only [List.foldlM_nil] at hfold
    cases hfold
    exact hP
  | cons x xs ih =>
    intro acc out hP hfold
    simp only [List.foldlM_cons] at hfold
    cases hf : f acc x with
    | none => rw [hf] at hfold; cases hfold
    | some acc1 =>
      rw [hf] at hfold
      exact ih acc1 out (hstep acc x acc1 hP hf) hfold

theorem resize_WF (hash : K → Nat) (eq : K → K → Bool) (m : HashMap K V)
    (m' : HashMap K V) (h : resize hash eq m = some m') :
    WF m' ∧ m'.capacity =
      (if m.capacity = 0 then DEFAULT_CAPACITY else m.capacity * 2) := by
  unfold resize at h
  refine foldlM_preserve _
    (fun acc => WF acc ∧ acc.capacity =
      (if m.capacity = 0 then DEFAULT_CAPACITY else m.capacity * 2))
    ?_ m.entries _ m' ⟨⟨?_, ?_⟩, rfl⟩ h
  · intro acc entry out hP hf
    obtain ⟨hwf, hcap⟩ := hP
    unfold resize_step at hf
    by_cases hocc : entry.state = EntryState.OCCUPIED
    · rw [if_pos hocc] at hf
      by_cases hguard : (find_entry hash eq acc.entries acc.capacity entry.key).found =
          false ∧ (find_entry hash eq acc.entries acc.capacity entry.key).index <
            acc.capacity
      · rw [if_pos hguard] at hf
        obtain ⟨hwf', hcap', -⟩ :=
          write_at_true_WF acc _ entry.key entry.value out hwf hguard.2 hf
        exact ⟨hwf', by rw [hcap', hcap]⟩
      · rw [if_neg hguard] at hf
        cases hf
    · rw [if_neg hocc] at hf
      cases hf
      exact ⟨hwf, hcap⟩
  · exact List.length_replicate _ _
  · rw [countOccupied_replicate]

theorem put_WF (hash : K → Nat) (eq : K → K → Bool) (m : HashMap K V) (key : K)
    (value : V) (m' : HashMap K V) (hwf : WF m)
    (h : put hash eq m key value = some m') : WF m' := by
  unfold put at h
  by_cases hfound : (find_entry hash eq m.entries m.capacity key).found = true
  · rw [if_pos hfound] at h
    have hlt := (find_entry_found hash eq m.entries m.capacity key hfound).1
    exact (write_at_false_WF m _ key value m' hwf hlt h).1
  · have hfound' : (find_entry hash eq m.entries m.capacity key).found = false := by
      cases hb : (find_entry hash eq m.entries m.capacity key).found
      · rfl
      · exact absurd hb hfound
    rw [if_neg (by rw [hfound']; exact Bool.noConfusion)] at h
    by_cases hneed : (find_entry hash eq m.entries m.capacity key).index = m.capacity ∨
        4 * (m.count + 1) > 3 * m.capacity
    · rw [if_pos hneed] at h
      cases hres : resize hash eq m with
      | none =>
        rw [hres] at h
        exact Option.noConfusion h
      | some m1 =>
        rw [hres] at h
        replace h :
            (if (find_entry hash eq m1.entries m1.capacity key).found = false ∧
                (find_entry hash eq m1.entries m1.capacity key).index < m1.capacity then
              write_at m1 (find_entry hash eq m1.entries m1.capacity key).index key value
                true
            else none) = some m' := h
        obtain ⟨hwf1, -⟩ := resize_WF hash eq m m1 hres
        by_cases hguard : (find_entry hash eq m1.entries m1.capacity key).found = false ∧
            (find_entry hash eq m1.entries m1.capacity key).index < m1.capacity
        · rw [if_pos hguard] at h
          exact (write_at_true_WF m1 _ key value m' hwf1 hguard.2 h).1
        · rw [if_neg hguard] at h
          cases h
    · rw [if_neg hneed] at h
      have hle := find_entry_index_le hash eq m.entries m.capacity key
      have hne : (find_entry hash eq m.entries m.capacity key).index ≠ m.capacity :=
        fun hx => hneed (Or.inl hx)
      exact (write_at_true_WF m _ key value m' hwf
        (Nat.lt_of_le_of_ne hle hne) h).1

theorem delete_WF (hash : K → Nat) (eq : K → K → Bool) (m : HashMap K V) (key : K)
    (hwf : WF m) : WF (delete hash eq m key).2 := by
  unfold delete
  by_cases hfound : (find_entry hash eq m.entries m.capacity key).found = true
  · rw [if_pos hfound]
    obtain ⟨hlt, hocc, -⟩ := find_entry_found hash eq m.entries m.capacity key hfound
    obtain ⟨hlen, hcount⟩ := hwf
    have hidx' : (find_entry hash eq m.entries m.capacity key).index <
        m.entries.length := by rw [hlen]; exact hlt
    have hset := countOccupied_set m.entries
      (find_entry hash eq m.entries m.capacity key).index
      { m.entries.getD (find_entry hash eq m.entries m.capacity key).index default with
          state := EntryState.DELETED } hidx'
    rw [if_pos hocc, if_neg (show ¬(EntryState.DELETED = EntryState.OCCUPIED) from
      fun hx => EntryState.noConfusion hx)] at hset
    refine ⟨by simpa using hlen, ?_⟩
    show m.count - 1 = countOccupied (m.entries.set
      (find_entry hash eq m.entries m.capacity key).index
      { m.entries.getD (find_entry hash eq m.entries m.capacity key).index default with
          state := EntryState.DELETED })
    omega
  · rw [if_neg hfound]
    exact hwf

theorem runOps_WF (hash : K → Nat) (eq : K → K → Bool) :
    ∀ (ops : List (Op K V)) (m m' : HashMap K V), WF m →
      runOps hash eq m ops = some m' → WF m' := by
  intro ops
  induction ops with
  | nil =>
    intro m m' hwf h
    cases h
    exact hwf
  | cons op ops ih =>
    intro m m' hwf h
    unfold runOps at h
    cases hst : applyOp hash eq m op with
    | none => rw [hst] at h; cases h
    | some m1 =>
      rw [hst] at h
      refine ih m1 m' ?_ h
      cases op with
      | put key value => exact put_WF hash eq m key value m1 hwf hst
      | get key =>
        unfold applyOp at hst
        cases hst
        exact hwf
      | del key =>
        unfold applyOp at hst
        cases hst
        exact delete_WF hash eq m key hwf

/-- C1: for every hash-table state with `capacity > 0` and every key,
`find_entry` starts at `hash(key) mod capacity` and scans forward with
wraparound for at most `capacity` steps; an EMPTY slot ends the search
not-found, returning the first tombstone index seen if any, else the
empty slot's index; a matching OCCUPIED slot ends the search found at
that index; non-matching OCCUPIED and DELETED slots continue (DELETED
recording the first tombstone); an exhausted scan returns the first
tombstone, or the sentinel `capacity`.  Stated as: the C loop equals
the declarative description `find_entry_spec`. -/
theorem C1_find_entry_probe (hash : K → Nat) (eq : K → K → Bool)
    (entries : List (Entry K V)) (capacity : Nat) (key : K)
    (hcap : 0 < capacity) :
    find_entry hash eq entries capacity key =
      find_entry_spec hash eq entries capacity key := by
  clear hcap
  exact find_entry_eq_spec hash eq entries capacity key

/-- Witness for C1 on a concrete 4-slot table holding a tombstone, two
occupied slots and an empty slot. -/
theorem C1_find_entry_probe_witness :
    (0 : Nat) < 4 ∧
      find_entry (fun k => k) (fun a b => a == b)
          [⟨0, 0, EntryState.DELETED⟩, ⟨5, 50, EntryState.OCCUPIED⟩,
            ⟨0, 0, EntryState.EMPTY⟩, ⟨9, 90, EntryState.OCCUPIED⟩] 4 (9 : Nat) =
        find_entry_spec (fun k => k) (fun a b => a == b)
          [⟨0, 0, EntryState.DELETED⟩, ⟨5, 50, EntryState.OCCUPIED⟩,
            ⟨0, 0, EntryState.EMPTY⟩, ⟨9, 90, EntryState.OCCUPIED⟩] 4 (9 : Nat) :=
  ⟨by decide,
    C1_find_entry_probe (fun k => k) (fun a b => a == b)
      [⟨0, 0, EntryState.DELETED⟩, ⟨5, 50, EntryState.OCCUPIED⟩,
        ⟨0, 0, EntryState.EMPTY⟩, ⟨9, 90, EntryState.OCCUPIED⟩] 4 9 (by decide)⟩

/-- C2: after every completed sequence of put/get/delete operations on a
table created by the constructor, `count` equals the number of OCCUPIED
slots.  A `put` whose internal assertion fails terminates the C process
(modelled by `runOps` returning `none`), so completed runs are exactly
the runs the C program can observe. -/
theorem C2_count_equals_occupied (hash : K → Nat) (eq : K → K → Bool)
    (ops : List (Op K V)) (m : HashMap K V)
    (h : runOps hash eq new ops = some m) :
    m.count = countOccupied m.entries :=
  (runOps_WF hash eq ops new m WF_new h).2

/-- Witness for C2 on a concrete run with inserts, an update and a
delete. -/
theorem C2_count_equals_occupied_witness :
    ((runOps (fun k => k) (fun a b => a == b) new
          [Op.put 1 10, Op.put 2 20, Op.del 1, Op.put 2 22, Op.get 2]).getD
        new).count =
      countOccupied
        ((runOps (fun k => k) (fun a b => a == b) new
            [Op.put 1 10, Op.put 2 20, Op.del 1, Op.put 2 22, Op.get 2]).getD
          new).entries :=
  C2_count_equals_occupied (fun k => k) (fun a b => a == b)
    [Op.put 1 10, Op.put 2 20, Op.del 1, Op.put 2 22, Op.get 2] _ (by rfl)

theorem occupiedPairs_replicate (n : Nat) :
    occupiedPairs (List.replicate n (default : Entry K V)) = [] := by
  unfold occupiedPairs
  induction n with
  | zero => rfl
  | succ n ih => simp only [List.replicate_succ, List.filterMap_cons]; simpa using ih

theorem occupiedPairs_length (entries : List (Entry K V)) :
    (occupiedPairs entries).length = countOccupied entries := by
  unfold occupiedPairs countOccupied
  induction entries with
  | nil => rfl
  | cons e l ih =>
    rw [List.filterMap_cons, List.countP_cons]
    by_cases hocc : e.state = EntryState.OCCUPIED
    · simp [hocc, ih]
    · simp [hocc, ih]

/-- Writing a fresh OCCUPIED entry over a non-OCCUPIED slot adds exactly
its pair to the occupied pairs, up to order. -/
theorem occupiedPairs_set_perm (entries : List (Entry K V)) (i : Nat) (k : K) (v : V)
    (hi : i < entries.length)
    (hocc : (entries.getD i default).state ≠ EntryState.OCCUPIED) :
    (occupiedPairs (entries.set i ⟨k, v, EntryState.OCCUPIED⟩)).Perm
      ((k, v) :: occupiedPairs entries) := by
  induction entries generalizing i with
  | nil => cases hi
  | cons e l ih =>
    cases i with
    | zero =>
      have he : e.state ≠ EntryState.OCCUPIED := by simpa using hocc
      unfold occupiedPairs
      rw [List.set_cons_zero, List.filterMap_cons, List.filterMap_cons]
      simp only [if_pos rfl, if_neg he]
      exact List.Perm.refl _
    | succ i =>
      have hi' : i < l.length := Nat.lt_of_succ_lt_succ hi
      have hocc' : (l.getD i default).state ≠ EntryState.OCCUPIED := by
        simpa using hocc
      have hperm := ih i hi' hocc'
      unfold occupiedPairs
      rw [List.set_cons_succ, List.filterMap_cons, List.filterMap_cons]
      by_cases he : e.state = EntryState.OCCUPIED
      · simp only [if_pos he]
        exact ((hperm.cons (e.key, e.value)).trans (List.Perm.swap _ _ _))
      · simp only [if_neg he]
        exact hperm

theorem noDeleted_replicate (n : Nat) :
    noDeleted (List.replicate n (default : Entry K V)) := by
  intro e he
  rw [List.eq_of_mem_replicate he]
  intro hx
  cases hx

theorem noDeleted_set (entries : List (Entry K V)) (i : Nat) (k : K) (v : V)
    (h : noDeleted entries) :
    noDeleted (entries.set i ⟨k, v, EntryState.OCCUPIED⟩) := by
  intro e he
  rcases List.mem_or_eq_of_mem_set he with hmem | heq
  · exact h e hmem
  · rw [heq]
    intro hx
    cases hx

/-- What one full re-hash fold does to the fresh accumulator array. -/
theorem resize_fold_spec (hash : K → Nat) (eq : K → K → Bool) :
    ∀ (l : List (Entry K V)) (acc out : HashMap K V),
      acc.entries.length = acc.capacity → noDeleted acc.entries →
      l.foldlM (resize_step hash eq) acc = some out →
      out.capacity = acc.capacity ∧ out.entries.length = acc.entries.length ∧
        noDeleted out.entries ∧
        (occupiedPairs out.entries).Perm (occupiedPairs l ++ occupiedPairs acc.entries) ∧
        out.count = acc.count + countOccupied l := by
  intro l
  induction l with
  | nil =>
    intro acc out hlen hnd h
    simp only [List.foldlM_nil] at h
    cases h
    exact ⟨rfl, rfl, hnd, by simp [occupiedPairs, countOccupied], by
      simp [countOccupied]⟩
  | cons entry l ih =>
    intro acc out hlen hnd h
    simp only [List.foldlM_cons] at h
    cases hf : resize_step hash eq acc entry with
    | none => rw [hf] at h; cases h
    | some acc1 =>
      rw [hf] at h
      unfold resize_step at hf
      by_cases hocc : entry.state = EntryState.OCCUPIED
      · rw [if_pos hocc] at hf
        by_cases hguard : (find_entry hash eq acc.entries acc.capacity entry.key).found =
            false ∧ (find_entry hash eq acc.entries acc.capacity entry.key).index <
              acc.capacity
        · rw [if_pos hguard] at hf
          obtain ⟨hslot, rfl⟩ := write_at_true_some acc _ entry.key entry.value acc1 hf
          have hi : (find_entry hash eq acc.entries acc.capacity entry.key).index <
              acc.entries.length := by rw [hlen]; exact hguard.2
          obtain ⟨hcap1, hlen1, hnd1, hperm1, hcount1⟩ := ih _ out
            (by simpa using hlen)
            (noDeleted_set acc.entries _ entry.key entry.value hnd) h
          refine ⟨hcap1, ?_, hnd1, ?_, ?_⟩
          · rw [hlen1]
            simpa using rfl
          · have hset := occupiedPairs_set_perm acc.entries _ entry.key entry.value hi
              hslot
            have hmid := hperm1.trans (List.Perm.append_left (occupiedPairs l)
              (hset : _))
            have hcons : occupiedPairs (entry :: l) =
                (entry.key, entry.value) :: occupiedPairs l := by
              unfold occupiedPairs
              rw [List.filterMap_cons]
              simp [hocc]
            rw [hcons]
            refine hmid.trans ?_
            exact (List.perm_middle).symm.symm
          · have hcons : countOccupied (entry :: l) = countOccupied l + 1 := by
              unfold countOccupied
              rw [List.countP_cons]
              simp [hocc]
            rw [hcons]
            simp only at hcount1
            omega
        · rw [if_neg hguard] at hf
          cases hf
      · rw [if_neg hocc] at hf
        cases hf
        obtain ⟨hcap1, hlen1, hnd1, hperm1, hcount1⟩ := ih acc out hlen hnd h
        have hcons : occupiedPairs (entry :: l) = occupiedPairs l := by
          unfold occupiedPairs
          rw [List.filterMap_cons]
          simp [hocc]
        have hcons2 : countOccupied (entry :: l) = countOccupied l := by
          unfold countOccupied
          rw [List.countP_cons]
          simp [hocc]
        exact ⟨hcap1, hlen1, hnd1, (by rw [hcons]; exact hperm1),
          (by rw [hcons2]; exact hcount1)⟩

/-- C3: whenever resize succeeds, the multiset (hence the set) of
(key, value) pairs in OCCUPIED slots is unchanged, the new capacity is
double the old (or 64 when growing from zero), no slot is DELETED
afterwards, and `count` equals the number of carried-over live entries.
Proved without any consistency assumption on `hash`/`eq`: success of
the re-hash assertions already forces every carried entry into its own
fresh slot. -/
theorem C3_resize_preserves_entries (hash : K → Nat) (eq : K → K → Bool)
    (m m' : HashMap K V) (h : resize hash eq m = some m') :
    m'.capacity = (if m.capacity = 0 then DEFAULT_CAPACITY else m.capacity * 2) ∧
      (occupiedPairs m'.entries).Perm (occupiedPairs m.entries) ∧
      (∀ kv, kv ∈ occupiedPairs m'.entries ↔ kv ∈ occupiedPairs m.entries) ∧
      (∀ e ∈ m'.entries, e.state ≠ EntryState.DELETED) ∧
      m'.count = (occupiedPairs m.entries).length := by
  unfold resize at h
  obtain ⟨hcap, -, hnd, hperm, hcount⟩ := resize_fold_spec hash eq m.entries _ m'
    (by simp) (noDeleted_replicate _) h
  have hperm' : (occupiedPairs m'.entries).Perm (occupiedPairs m.entries) := by
    refine hperm.trans ?_
    rw [occupiedPairs_replicate, List.append_nil]
  refine ⟨by simpa using hcap, hperm', fun kv => hperm'.mem_iff, hnd, ?_⟩
  rw [hcount, occupiedPairs_length]
  simp [countOccupied_replicate]

/-- Witness for C3: resizing a concrete 2-slot table holding one live
entry and one tombstone. -/
theorem C3_resize_preserves_entries_witness :
    ((resize (fun k => k) (fun a b => a == b)
          (HashMap.mk [⟨1, 10, EntryState.OCCUPIED⟩, ⟨2, 20, EntryState.DELETED⟩] 2 1)).getD
        new).capacity = 4 ∧
      ((resize (fun k => k) (fun a b => a == b)
            (HashMap.mk [⟨1, 10, EntryState.OCCUPIED⟩, ⟨2, 20, EntryState.DELETED⟩] 2 1)).getD
          new).count = 1 :=
  ⟨(C3_resize_preserves_entries (fun k => k) (fun a b => a == b)
      (HashMap.mk [⟨1, 10, EntryState.OCCUPIED⟩, ⟨2, 20, EntryState.DELETED⟩] 2 1) _
      (by rfl)).1,
    (C3_resize_preserves_entries (fun k => k) (fun a b => a == b)
      (HashMap.mk [⟨1, 10, EntryState.OCCUPIED⟩, ⟨2, 20, EntryState.DELETED⟩] 2 1) _
      (by rfl)).2.2.2.2⟩

theorem getD_set_self {α : Type} (l : List α) (i : Nat) (a d : α) (h : i < l.length) :
    (l.set i a).getD i d = a := by
  rw [List.getD_eq_getElem?_getD, List.getElem?_set_self h]
  rfl

theorem getD_set_ne {α : Type} (l : List α) (i j : Nat) (a d : α) (h : i ≠ j) :
    (l.set i a).getD j d = l.getD j d := by
  rw [List.getD_eq_getElem?_getD, List.getElem?_set_ne h, ← List.getD_eq_getElem?_getD]

/-- Within one wrap of the table the probe sequence visits distinct
array indices. -/
theorem probeIdx_inj (capacity base d1 d2 : Nat) (h1 : d1 < capacity)
    (h2 : d2 < capacity) (h : probeIdx capacity base d1 = probeIdx capacity base d2) :
    d1 = d2 := by
  unfold probeIdx at h
  have hmod : d1 % capacity = d2 % capacity :=
    Nat.ModEq.add_left_cancel' base h
  rw [Nat.mod_eq_of_lt h1, Nat.mod_eq_of_lt h2] at hmod
  exact hmod

/-- After writing the probed key into the slot an unsuccessful probe
selected, a new probe finds the key at exactly that slot (`eq` need
only accept the key against itself). -/
theorem find_entry_after_insert (hash : K → Nat) (eq : K → K → Bool)
    (entries : List (Entry K V)) (capacity : Nat) (key : K) (v : V)
    (hlen : entries.length = capacity)
    (heqk : eq key key = true)
    (hnf : (find_entry hash eq entries capacity key).found = false)
    (hlt : (find_entry hash eq entries capacity key).index < capacity) :
    find_entry hash eq
        (entries.set (find_entry hash eq entries capacity key).index
          ⟨key, v, EntryState.OCCUPIED⟩) capacity key =
      ⟨(find_entry hash eq entries capacity key).index, true⟩ := by
  have hcap : capacity ≠ 0 := by
    intro hx
    rw [hx] at hlt
    cases hlt
  have hcap' : 0 < capacity := Nat.pos_of_ne_zero hcap
  set i := (find_entry hash eq entries capacity key).index with hi
  set base := hash key % capacity with hbase
  have hilen : i < entries.length := by rw [hlen]; exact hlt
  -- the stopping offset in the new array: the offset whose array index is i
  -- in the old probe, and a proof all earlier offsets still fail to stop
  have main : ∀ dstop : Nat, dstop < capacity → probeIdx capacity base dstop = i →
      (∀ d, d < dstop →
        stopsProbe eq key (slotAt entries capacity base d) = false) →
      find_entry hash eq (entries.set i ⟨key, v, EntryState.OCCUPIED⟩) capacity key =
        ⟨i, true⟩ := by
    intro dstop hds hpi hprev
    have hfind' : ((List.range capacity).find? fun d =>
        stopsProbe eq key
          (slotAt (entries.set i ⟨key, v, EntryState.OCCUPIED⟩) capacity base d)) =
        some dstop := by
      rw [rangeFind_eq_some_iff]
      refine ⟨hds, ?_, ?_⟩
      · unfold slotAt
        rw [hpi, getD_set_self entries i _ _ hilen]
        unfold stopsProbe
        exact heqk
      · intro d hd
        have hdlt : d < capacity := Nat.lt_trans hd hds
        have hne : i ≠ probeIdx capacity base d := by
          intro hx
          exact absurd (probeIdx_inj capacity base dstop d hds hdlt
            (hpi.trans hx)) (by omega)
        unfold slotAt
        rw [getD_set_ne entries i _ _ _ hne]
        exact hprev d hd
    have hocc' : (slotAt (entries.set i ⟨key, v, EntryState.OCCUPIED⟩) capacity base
        dstop).state = EntryState.OCCUPIED := by
      unfold slotAt
      rw [hpi, getD_set_self entries i _ _ hilen]
    have := find_entry_of_stop_occ hash eq
      (entries.set i ⟨key, v, EntryState.OCCUPIED⟩) capacity key dstop hcap hfind' hocc'
    rw [this, hpi]
  -- case analysis on the original probe
  cases hfind : (List.range capacity).find? fun d =>
      stopsProbe eq key (slotAt entries capacity base d) with
  | some j =>
    obtain ⟨hjlt, hpj, hjmin⟩ := (rangeFind_eq_some_iff _ capacity j).mp hfind
    by_cases hocc : (slotAt entries capacity base j).state = EntryState.OCCUPIED
    · exfalso
      have := find_entry_of_stop_occ hash eq entries capacity key j hcap hfind hocc
      rw [this] at hnf
      cases hnf
    · have hval := find_entry_of_stop_nonocc hash eq entries capacity key j hcap hfind hocc
      cases hts : firstTombstone entries capacity base j with
      | none =>
        rw [hts] at hval
        have hieq : i = probeIdx capacity base j := by
          simp only [hi, hval, Option.getD_none, ← hbase]
        exact main j hjlt hieq.symm hjmin
      | some t =>
        rw [hts] at hval
        have hieq : i = t := by simp [hi, hval]
        unfold firstTombstone at hts
        rw [Option.map_eq_some'] at hts
        obtain ⟨dt, hdt, hteq⟩ := hts
        obtain ⟨hdtlt, -, -⟩ := (rangeFind_eq_some_iff _ j dt).mp hdt
        have hdtcap : dt < capacity := Nat.lt_trans hdtlt hjlt
        refine main dt hdtcap (by rw [hteq, hieq]) ?_
        intro d hd
        exact hjmin d (Nat.lt_trans hd hdtlt)
  | none =>
    have hall := (rangeFind_eq_none_iff _ capacity).mp hfind
    have hval := find_entry_of_none hash eq entries capacity key hcap hfind
    cases hts : firstTombstone entries capacity base capacity with
    | none =>
      exfalso
      rw [hts] at hval
      have : i = capacity := by simp only [hi, hval, Option.getD_none]
      omega
    | some t =>
      rw [hts] at hval
      have hieq : i = t := by simp [hi, hval]
      unfold firstTombstone at hts
      rw [Option.map_eq_some'] at hts
      obtain ⟨dt, hdt, hteq⟩ := hts
      obtain ⟨hdtlt, -, -⟩ := (rangeFind_eq_some_iff _ capacity dt).mp hdt
      refine main dt hdtlt (by rw [hteq, hieq]) ?_
      intro d hd
      exact hall d (Nat.lt_trans hd hdtlt)

/-- After overwriting the slot a successful probe found with the same
key, a new probe still finds the key at that slot. -/
theorem find_entry_after_update (hash : K → Nat) (eq : K → K → Bool)
    (entries : List (Entry K V)) (capacity : Nat) (key : K) (v : V)
    (hlen : entries.length = capacity)
    (heqk : eq key key = true)
    (hf : (find_entry hash eq entries capacity key).found = true) :
    find_entry hash eq
        (entries.set (find_entry hash eq entries capacity key).index
          ⟨key, v, EntryState.OCCUPIED⟩) capacity key =
      ⟨(find_entry hash eq entries capacity key).index, true⟩ := by
  have hcap : capacity ≠ 0 := by
    intro hx
    unfold find_entry at hf
    rw [if_pos hx] at hf
    cases hf
  have hcap' : 0 < capacity := Nat.pos_of_ne_zero hcap
  set i := (find_entry hash eq entries capacity key).index with hi
  set base := hash key % capacity with hbase
  have hlt : i < capacity := by
    rw [hi]
    exact (find_entry_found hash eq entries capacity key hf).1
  have hilen : i < entries.length := by rw [hlen]; exact hlt
  cases hfind : (List.range capacity).find? fun d =>
      stopsProbe eq key (slotAt entries capacity base d) with
  | some j =>
    obtain ⟨hjlt, hpj, hjmin⟩ := (rangeFind_eq_some_iff _ capacity j).mp hfind
    by_cases hocc : (slotAt entries capacity base j).state = EntryState.OCCUPIED
    · have hval := find_entry_of_stop_occ hash eq entries capacity key j hcap hfind hocc
      have hieq : i = probeIdx capacity base j := by simp only [hi, hval]
      have hfind' : ((List.range capacity).find? fun d =>
          stopsProbe eq key
            (slotAt (entries.set i ⟨key, v, EntryState.OCCUPIED⟩) capacity base d)) =
          some j := by
        rw [rangeFind_eq_some_iff]
        refine ⟨hjlt, ?_, ?_⟩
        · unfold slotAt
          rw [← hieq, getD_set_self entries i _ _ hilen]
          unfold stopsProbe
          exact heqk
        · intro d hd
          have hdlt : d < capacity := Nat.lt_trans hd hjlt
          have hne : i ≠ probeIdx capacity base d := by
            intro hx
            rw [hieq] at hx
            exact absurd (probeIdx_inj capacity base j d hjlt hdlt hx) (by omega)
          unfold slotAt
          rw [getD_set_ne entries i _ _ _ hne]
          exact hjmin d hd
      have hocc' : (slotAt (entries.set i ⟨key, v, EntryState.OCCUPIED⟩) capacity base
          j).state = EntryState.OCCUPIED := by
        unfold slotAt
        rw [← hieq, getD_set_self entries i _ _ hilen]
      have := find_entry_of_stop_occ hash eq
        (entries.set i ⟨key, v, EntryState.OCCUPIED⟩) capacity key j hcap hfind' hocc'
      rw [this, hieq]
    · exfalso
      have hval := find_entry_of_stop_nonocc hash eq entries capacity key j hcap hfind hocc
      have : (find_entry hash eq entries capacity key).found = false := by
        simp only [hval]
      rw [this] at hf
      cases hf
  | none =>
    exfalso
    have hval := find_entry_of_none hash eq entries capacity key hcap hfind
    have : (find_entry hash eq entries capacity key).found = false := by
      simp only [hval]
    rw [this] at hf
    cases hf

/-- After a successful `put` of `key`, a probe for `key` finds it, and
the found slot holds exactly the stored pair. -/
theorem put_lookup (hash : K → Nat) (eq : K → K → Bool) (m : HashMap K V)
    (key : K) (v : V) (m1 : HashMap K V)
    (hlen : m.entries.length = m.capacity)
    (heqk : eq key key = true)
    (h : put hash eq m key v = some m1) :
    (find_entry hash eq m1.entries m1.capacity key).found = true ∧
      m1.entries.getD (find_entry hash eq m1.entries m1.capacity key).index default =
        ⟨key, v, EntryState.OCCUPIED⟩ ∧
      m1.entries.length = m1.capacity := by
  unfold put at h
  by_cases hfound : (find_entry hash eq m.entries m.capacity key).found = true
  · rw [if_pos hfound] at h
    obtain ⟨hocc, rfl⟩ := write_at_false_some m _ key v m1 h
    have hre := find_entry_after_update hash eq m.entries m.capacity key v hlen heqk
      hfound
    have hlt := (find_entry_found hash eq m.entries m.capacity key hfound).1
    have hilen : (find_entry hash eq m.entries m.capacity key).index <
        m.entries.length := by rw [hlen]; exact hlt
    refine ⟨?_, ?_, by simpa using hlen⟩
    · simp only [hre]
    · simp only [hre]
      exact getD_set_self m.entries _ _ _ hilen
  · have hfound' : (find_entry hash eq m.entries m.capacity key).found = false := by
      cases hb : (find_entry hash eq m.entries m.capacity key).found
      · rfl
      · exact absurd hb hfound
    rw [if_neg (by rw [hfound']; exact Bool.noConfusion)] at h
    by_cases hneed : (find_entry hash eq m.entries m.capacity key).index = m.capacity ∨
        4 * (m.count + 1) > 3 * m.capacity
    · rw [if_pos hneed] at h
      cases hres : resize hash eq m with
      | none =>
        rw [hres] at h
        exact Option.noConfusion h
      | some mr =>
        rw [hres] at h
        replace h :
            (if (find_entry hash eq mr.entries mr.capacity key).found = false ∧
                (find_entry hash eq mr.entries mr.capacity key).index < mr.capacity then
              write_at mr (find_entry hash eq mr.entries mr.capacity key).index key v
                true
            else none) = some m1 := h
        obtain ⟨hwfr, -⟩ := resize_WF hash eq m mr hres
        by_cases hguard : (find_entry hash eq mr.entries mr.capacity key).found = false ∧
            (find_entry hash eq mr.entries mr.capacity key).index < mr.capacity
        · rw [if_pos hguard] at h
          obtain ⟨hocc, rfl⟩ := write_at_true_some mr _ key v m1 h
          have hre := find_entry_after_insert hash eq mr.entries mr.capacity key v
            hwfr.1 heqk hguard.1 hguard.2
          have hilen : (find_entry hash eq mr.entries mr.capacity key).index <
              mr.entries.length := by rw [hwfr.1]; exact hguard.2
          refine ⟨?_, ?_, by simpa using hwfr.1⟩
          · simp only [hre]
          · simp only [hre]
            exact getD_set_self mr.entries _ _ _ hilen
        · rw [if_neg hguard] at h
          cases h
    · rw [if_neg hneed] at h
      obtain ⟨hocc, rfl⟩ := write_at_true_some m _ key v m1 h
      have hle := find_entry_index_le hash eq m.entries m.capacity key
      have hne : (find_entry hash eq m.entries m.capacity key).index ≠ m.capacity :=
        fun hx => hneed (Or.inl hx)
      have hlt : (find_entry hash eq m.entries m.capacity key).index < m.capacity :=
        Nat.lt_of_le_of_ne hle hne
      have hre := find_entry_after_insert hash eq m.entries m.capacity key v hlen heqk
        hfound' hlt
      have hilen : (find_entry hash eq m.entries m.capacity key).index <
          m.entries.length := by rw [hlen]; exact hlt
      refine ⟨?_, ?_, by simpa using hlen⟩
      · simp only [hre]
      · simp only [hre]
        exact getD_set_self m.entries _ _ _ hilen

/-- C8: on any table in which `key` is already present, storing `v1`
then `v2` under `key` and reading `key` back yields `v2`; the second
`put` overwrites in place, leaving `count` and `capacity` unchanged.
`eq` is assumed to accept `key` against itself (any genuine equality
predicate is reflexive). -/
theorem C8_put_put_get (hash : K → Nat) (eq : K → K → Bool)
    (m m1 m2 : HashMap K V) (key : K) (v1 v2 : V)
    (hlen : m.entries.length = m.capacity)
    (heqk : eq key key = true)
    (hpresent : (find_entry hash eq m.entries m.capacity key).found = true)
    (h1 : put hash eq m key v1 = some m1)
    (h2 : put hash eq m1 key v2 = some m2) :
    get hash eq m2 key = some v2 ∧ m2.count = m1.count ∧
      m2.capacity = m1.capacity := by
  clear hpresent
  obtain ⟨hf1, hslot1, hlen1⟩ := put_lookup hash eq m key v1 m1 hlen heqk h1
  unfold put at h2
  rw [if_pos hf1] at h2
  obtain ⟨hocc2, rfl⟩ := write_at_false_some m1 _ key v2 m2 h2
  have hlt1 : (find_entry hash eq m1.entries m1.capacity key).index < m1.capacity :=
    (find_entry_found hash eq m1.entries m1.capacity key hf1).1
  have hilen1 : (find_entry hash eq m1.entries m1.capacity key).index <
      m1.entries.length := by rw [hlen1]; exact hlt1
  have hre := find_entry_after_update hash eq m1.entries m1.capacity key v2 hlen1 heqk
    hf1
  refine ⟨?_, rfl, rfl⟩
  unfold get
  simp only [hre, if_pos rfl]
  rw [getD_set_self m1.entries _ _ _ hilen1]
  simp

/-- Witness for C8: the key 3 is inserted, then stored twice more with
fresh values; reading it back yields the last value and the counters
agree. -/
theorem C8_put_put_get_witness :
    get (fun k => k) (fun a b => a == b)
        ((put (fun k => k) (fun a b => a == b)
            ((put (fun k => k) (fun a b => a == b)
                ((put (fun k => k) (fun a b => a == b) new 3 1).getD new) 3 7).getD new)
            3 9).getD new) 3 = some 9 ∧
      ((put (fun k => k) (fun a b => a == b)
          ((put (fun k => k) (fun a b => a == b)
              ((put (fun k => k) (fun a b => a == b) new 3 1).getD new) 3 7).getD new)
          3 9).getD new).count =
        ((put (fun k => k) (fun a b => a == b)
            ((put (fun k => k) (fun a b => a == b) new 3 1).getD new) 3 7).getD
          new).count ∧
      ((put (fun k => k) (fun a b => a == b)
          ((put (fun k => k) (fun a b => a == b)
              ((put (fun k => k) (fun a b => a == b) new 3 1).getD new) 3 7).getD new)
          3 9).getD new).capacity =
        ((put (fun k => k) (fun a b => a == b)
            ((put (fun k => k) (fun a b => a == b) new 3 1).getD new) 3 7).getD
          new).capacity :=
  C8_put_put_get (fun k => k) (fun a b => a == b)
    ((put (fun k => k) (fun a b => a == b) new 3 1).getD new) _ _ 3 7 9
    (by decide) (by decide) (by decide) (by rfl) (by rfl)

/-- If no array index holds an OCCUPIED entry with a matching key, the
probe reports not-found. -/
theorem find_entry_no_match_idx (hash : K → Nat) (eq : K → K → Bool)
    (entries : List (Entry K V)) (capacity : Nat) (key : K)
    (hnone : ∀ j, j < capacity →
      ¬((entries.getD j default).state = EntryState.OCCUPIED ∧
        eq (entries.getD j default).key key = true)) :
    (find_entry hash eq entries capacity key).found = false := by
  cases hb : (find_entry hash eq entries capacity key).found
  · rfl
  · obtain ⟨hlt, hocc, heq⟩ := find_entry_found hash eq entries capacity key hb
    exact absurd ⟨hocc, heq⟩ (hnone _ hlt)

/-- C7 counterexample: a 2-slot table whose slot 1 is OCCUPIED with key
7 (so 7 is present per the claim's wording) while slot 0 is EMPTY; with
the constant hash the probe for 7 starts at slot 0, stops at the EMPTY
slot, and `delete` returns false leaving the table unchanged — the
claim's "delete on a present key returns true" is false for this
state. -/
theorem C7_delete_counterexample :
    (∃ e ∈ (HashMap.mk [⟨0, 0, EntryState.EMPTY⟩, ⟨7, 1, EntryState.OCCUPIED⟩]
        2 1 : HashMap Nat Nat).entries,
      e.state = EntryState.OCCUPIED ∧ ((fun a b : Nat => a == b) e.key 7) = true) ∧
      (delete (fun _ => 0) (fun a b : Nat => a == b)
        (HashMap.mk [⟨0, 0, EntryState.EMPTY⟩, ⟨7, 1, EntryState.OCCUPIED⟩] 2 1)
        7).1 = false ∧
      (delete (fun _ => 0) (fun a b : Nat => a == b)
        (HashMap.mk [⟨0, 0, EntryState.EMPTY⟩, ⟨7, 1, EntryState.OCCUPIED⟩] 2 1)
        7).2 =
        HashMap.mk [⟨0, 0, EntryState.EMPTY⟩, ⟨7, 1, EntryState.OCCUPIED⟩] 2 1 := by
  decide

/-- C7 as amended: deleting a key that no OCCUPIED slot matches returns
false and leaves the table unchanged; deleting a key the probe finds —
when the found slot is the only OCCUPIED slot matching it — returns
true, marks exactly that slot DELETED, decrements `count` by one, and a
subsequent `get` of the key returns none. -/
theorem C7_delete_absent_present (hash : K → Nat) (eq : K → K → Bool)
    (m : HashMap K V) (key : K) :
    ((∀ j, j < m.capacity →
        ¬((m.entries.getD j default).state = EntryState.OCCUPIED ∧
          eq (m.entries.getD j default).key key = true)) →
      delete hash eq m key = (false, m)) ∧
    ((find_entry hash eq m.entries m.capacity key).found = true →
      (∀ j, j < m.capacity →
        (m.entries.getD j default).state = EntryState.OCCUPIED →
        eq (m.entries.getD j default).key key = true →
        j = (find_entry hash eq m.entries m.capacity key).index) →
      (delete hash eq m key).1 = true ∧
        (delete hash eq m key).2.count = m.count - 1 ∧
        (delete hash eq m key).2.entries =
          m.entries.set (find_entry hash eq m.entries m.capacity key).index
            { m.entries.getD (find_entry hash eq m.entries m.capacity key).index
                default with state := EntryState.DELETED } ∧
        get hash eq (delete hash eq m key).2 key = none) := by
  constructor
  · intro hnone
    have hnf := find_entry_no_match_idx hash eq m.entries m.capacity key hnone
    unfold delete
    rw [if_neg (by rw [hnf]; exact Bool.noConfusion)]
  · intro hfound huniq
    have hdel : delete hash eq m key =
        (true,
          { m with
            entries := m.entries.set (find_entry hash eq m.entries m.capacity key).index
              { m.entries.getD (find_entry hash eq m.entries m.capacity key).index
                  default with state := EntryState.DELETED },
            count := m.count - 1 }) := by
      unfold delete
      rw [if_pos hfound]
    rw [hdel]
    refine ⟨rfl, rfl, rfl, ?_⟩
    unfold get
    have hnf : (find_entry hash eq
        (m.entries.set (find_entry hash eq m.entries m.capacity key).index
          { m.entries.getD (find_entry hash eq m.entries m.capacity key).index
              default with state := EntryState.DELETED }) m.capacity key).found =
        false := by
      refine find_entry_no_match_idx hash eq _ m.capacity key ?_
      intro j hj ⟨hjocc, hjeq⟩
      by_cases hji : (find_entry hash eq m.entries m.capacity key).index = j
      · by_cases hjl : j < m.entries.length
        · rw [← hji, getD_set_self m.entries _ _ _ (by rw [hji]; exact hjl)] at hjocc
          cases hjocc
        · rw [List.getD_eq_getElem?_getD, List.getElem?_eq_none
            (by rw [List.length_set]; omega), Option.getD_none] at hjocc
          cases hjocc
      · rw [getD_set_ne m.entries _ _ _ _ hji] at hjocc hjeq
        exact absurd (huniq j hj hjocc hjeq).symm hji
    simp only [hnf]
    rfl

/-- Witness for the amended C7: deleting the absent key 5 from a fresh
table, and deleting the present key 3 from a table holding it. -/
theorem C7_delete_absent_present_witness :
    (delete (fun k => k) (fun a b : Nat => a == b) (new (V := Nat)) 5 =
        (false, new)) ∧
      (delete (fun k => k) (fun a b : Nat => a == b)
          ((put (fun k => k) (fun a b : Nat => a == b) new 3 1).getD new) 3).1 =
        true ∧
      get (fun k => k) (fun a b : Nat => a == b)
          (delete (fun k => k) (fun a b : Nat => a == b)
            ((put (fun k => k) (fun a b : Nat => a == b) new 3 1).getD new) 3).2 3 =
        none :=
  ⟨(C7_delete_absent_present (fun k => k) (fun a b : Nat => a == b) new 5).1
      (by decide),
    ((C7_delete_absent_present (fun k => k) (fun a b : Nat => a == b)
        ((put (fun k => k) (fun a b : Nat => a == b) new 3 1).getD new) 3).2
      (by decide) (by decide)).1,
    ((C7_delete_absent_present (fun k => k) (fun a b : Nat => a == b)
        ((put (fun k => k) (fun a b : Nat => a == b) new 3 1).getD new) 3).2
      (by decide) (by decide)).2.2.2⟩

end KxHM

namespace KxBump

theorem is_power_of_two_of_pow (j : Nat) : is_power_of_two (2 ^ j) = true := by
  unfold is_power_of_two
  have hmod := Nat.and_pow_two_sub_one_eq_mod (2 ^ j) j
  have h0 : (2 : Nat) ^ j ≠ 0 := by positivity
  simp [h0, hmod]

theorem round_down_to_le (n d : Nat) : round_down_to n d ≤ n :=
  Nat.sub_le n (n % d)

theorem round_down_to_dvd (n d : Nat) : d ∣ round_down_to n d := by
  unfold round_down_to
  have h := Nat.div_add_mod n d
  have : n - n % d = d * (n / d) := by omega
  rw [this]
  exact Dvd.intro _ rfl

theorem round_down_to_mod (n d : Nat) : round_down_to n d % d = 0 := by
  rcases round_down_to_dvd n d with ⟨c, hc⟩
  rw [hc]
  exact Nat.mul_mod_right d c

theorem round_down_to_ge (n d : Nat) (hd : 0 < d) : n - (d - 1) ≤ round_down_to n d := by
  unfold round_down_to
  have := Nat.mod_lt n hd
  omega

theorem round_down_to_mono (a b d : Nat) (h : a ≤ b) :
    round_down_to a d ≤ round_down_to b d := by
  unfold round_down_to
  rcases Nat.eq_zero_or_pos d with hd | hd
  · simp [hd]
  · have ha := Nat.div_add_mod a d
    have hb := Nat.div_add_mod b d
    have hdiv : a / d ≤ b / d := Nat.div_le_div_right h
    have := Nat.mod_lt a hd
    have := Nat.mod_lt b hd
    calc a - a % d = d * (a / d) := by omega
    _ ≤ d * (b / d) := Nat.mul_le_mul_left d hdiv
    _ = b - b % d := by omega

theorem round_down_to_of_dvd (n d : Nat) (h : d ∣ n) : round_down_to n d = n := by
  unfold round_down_to
  rw [Nat.mod_eq_zero_of_dvd h]
  exact Nat.sub_zero n

/-- When the masked sum does not wrap, `round_up_to` is the least
multiple of `d` at least `n`. -/
theorem round_up_to_spec (n d : Nat) (hd : 0 < d) (hov : n + d - 1 < USIZE_LIMIT) :
    n ≤ round_up_to n d ∧ round_up_to n d < n + d ∧ d ∣ round_up_to n d := by
  unfold round_up_to
  rw [Nat.mod_eq_of_lt hov]
  have hmod := Nat.mod_lt (n + d - 1) hd
  refine ⟨by omega, by omega, ?_⟩
  exact round_down_to_dvd (n + d - 1) d

/-- When the masked sum wraps (only possible because usize addition is
unchecked in `round_up_to`), the result collapses to zero. -/
theorem round_up_to_wrap (n d : Nat) (hn : n < USIZE_LIMIT) (hdl : d ≤ USIZE_LIMIT)
    (hov : n + d - 1 ≥ USIZE_LIMIT) : round_up_to n d = 0 := by
  unfold round_up_to
  have h2 : (n + d - 1) % USIZE_LIMIT < d := by
    unfold USIZE_LIMIT at *
    omega
  rw [Nat.mod_eq_of_lt h2]
  omega

theorem pow_dvd_pow_of_le (i j : Nat) (h : 2 ^ i ≤ 2 ^ j) : (2 : Nat) ^ i ∣ 2 ^ j :=
  pow_dvd_pow 2 ((Nat.pow_le_pow_iff_right (by omega)).mp h)

theorem mod_eq_zero_of_sub_dvd (a b d : Nat) (ha : d ∣ a) (hb : d ∣ b) :
    (a - b) % d = 0 := by
  rcases Nat.eq_zero_or_pos d with hd | hd
  · rcases ha with ⟨x, rfl⟩
    simp [hd]
  · exact Nat.mod_eq_zero_of_dvd (Nat.dvd_sub' ha hb)

theorem try_alloc_fast_ok (b : Bump) (l : Layout) (p : Nat) (b2 : Bump)
    (k : Nat) (hma : b.min_align = 2 ^ k)
    (hpot : ∃ j, l.align = 2 ^ j) (hsize : 0 < l.size)
    (h : try_alloc_layout_fast b l = (AllocRes.ok p, b2)) :
    ∃ c tl, b.chunks = c :: tl ∧
      b2.chunks = { c with ptr := p } :: tl ∧
      b2.min_align = b.min_align ∧ b2.allocation_limit = b.allocation_limit ∧
      c.data ≤ p ∧ p + l.size ≤ c.ptr ∧ p % l.align = 0 := by
  obtain ⟨j, hj⟩ := hpot
  have hma1 : 0 < b.min_align := by rw [hma]; positivity
  have hal1 : 0 < l.align := by rw [hj]; positivity
  cases hchunks : b.chunks with
  | nil =>
    exfalso
    unfold try_alloc_layout_fast at h
    simp only [currentFooter, hchunks, List.headD, EMPTY_CHUNK] at h
    rw [if_neg (by simp)] at h
    by_cases halign : l.align ≤ b.min_align
    · rw [if_pos halign] at h
      by_cases hov : l.size + (b.min_align - 1) ≥ USIZE_LIMIT
      · rw [if_pos hov] at h
        simp at h
      · rw [if_neg hov] at h
        have hA : l.size ≤ round_down_to (l.size + (b.min_align - 1)) b.min_align := by
          have := round_down_to_ge (l.size + (b.min_align - 1)) b.min_align hma1
          omega
        rw [if_pos (by omega)] at h
        simp at h
    · rw [if_neg halign] at h
      by_cases hov : l.size + (l.align - 1) ≥ USIZE_LIMIT
      · rw [if_pos hov] at h
        simp at h
      · rw [if_neg hov] at h
        have hE : round_down_to 0 l.align = 0 := by
          unfold round_down_to
          simp
        rw [hE] at h
        rw [if_neg (by omega)] at h
        have hA : l.size ≤ round_down_to (l.size + (l.align - 1)) l.align := by
          have := round_down_to_ge (l.size + (l.align - 1)) l.align hal1
          omega
        rw [if_pos (by omega)] at h
        simp at h
  | cons c tl =>
    unfold try_alloc_layout_fast at h
    simp only [currentFooter, hchunks, List.headD] at h
    by_cases hal : c.ptr % b.min_align = 0
    · rw [if_neg (by simp [hal])] at h
      by_cases halign : l.align ≤ b.min_align
      · rw [if_pos halign] at h
        by_cases hov : l.size + (b.min_align - 1) ≥ USIZE_LIMIT
        · rw [if_pos hov] at h
          simp at h
        · rw [if_neg hov] at h
          have hA : l.size ≤ round_down_to (l.size + (b.min_align - 1)) b.min_align := by
            have := round_down_to_ge (l.size + (b.min_align - 1)) b.min_align hma1
            omega
          by_cases hcap : round_down_to (l.size + (b.min_align - 1)) b.min_align >
              c.ptr - c.data
          · rw [if_pos hcap] at h
            simp at h
          · rw [if_neg hcap] at h
            simp only [Prod.mk.injEq, AllocRes.ok.injEq] at h
            obtain ⟨hp, hb2⟩ := h
            have hdvdA := round_down_to_dvd (l.size + (b.min_align - 1)) b.min_align
            have hdvdp : b.min_align ∣ (c.ptr -
                round_down_to (l.size + (b.min_align - 1)) b.min_align) :=
              Nat.dvd_sub' (Nat.dvd_of_mod_eq_zero hal) hdvdA
            have hdvdla : l.align ∣ b.min_align := by
              rw [hj, hma]
              exact pow_dvd_pow_of_le j k (by rw [← hj, ← hma]; exact halign)
            subst hp
            subst hb2
            refine ⟨c, tl, rfl, ?_, rfl, rfl, ?_, ?_, ?_⟩
            · simp [setPtr, hchunks]
            · omega
            · omega
            · exact Nat.mod_eq_zero_of_dvd (dvd_trans hdvdla hdvdp)
      · rw [if_neg halign] at h
        by_cases hov : l.size + (l.align - 1) ≥ USIZE_LIMIT
        · rw [if_pos hov] at h
          simp at h
        · rw [if_neg hov] at h
          have hA : l.size ≤ round_down_to (l.size + (l.align - 1)) l.align := by
            have := round_down_to_ge (l.size + (l.align - 1)) l.align hal1
            omega
          by_cases hend : round_down_to c.ptr l.align < c.data
          · rw [if_pos hend] at h
            simp at h
          · rw [if_neg hend] at h
            by_cases hcap : round_down_to (l.size + (l.align - 1)) l.align >
                round_down_to c.ptr l.align - c.data
            · rw [if_pos hcap] at h
              simp at h
            · rw [if_neg hcap] at h
              simp only [Prod.mk.injEq, AllocRes.ok.injEq] at h
              obtain ⟨hp, hb2⟩ := h
              have hE := round_down_to_le c.ptr l.align
              have hdvdE := round_down_to_dvd c.ptr l.align
              have hdvdA := round_down_to_dvd (l.size + (l.align - 1)) l.align
              subst hp
              subst hb2
              refine ⟨c, tl, rfl, ?_, rfl, rfl, ?_, ?_, ?_⟩
              · simp [setPtr, hchunks]
              · omega
              · omega
              · exact Nat.mod_eq_zero_of_dvd (Nat.dvd_sub' hdvdE hdvdA)
    · exfalso
      rw [if_pos (by simp [hal])] at h
      simp at h

theorem new_chunk_ok (b : Bump) (s : Sys) (nswf align : Nat) (prev : ChunkFooter)
    (c : ChunkFooter) (s' : Sys)
    (hal0 : 0 < align) (hal : align ≤ USIZE_LIMIT)
    (h : new_chunk b s nswf align prev = ChunkRes.okC c s') :
    ChunkWF c ∧ c.ptr = round_down_to (c.data + c.footer_off) b.min_align := by
  unfold new_chunk at h
  simp only [] at h
  repeat' split at h
  all_goals try cases h
  rename_i hov hzero x data hlow hsys
  have halloc : round_up_to nswf CHUNK_ALIGN + FOOTER_SIZE ≤
      round_up_to (round_up_to nswf CHUNK_ALIGN + FOOTER_SIZE) align := by
    by_cases hw : (round_up_to nswf CHUNK_ALIGN + FOOTER_SIZE) + align - 1 <
        USIZE_LIMIT
    · exact (round_up_to_spec _ align hal0 hw).1
    · exact absurd (round_up_to_wrap _ align (by omega) hal (by omega)) hzero
  exact ⟨⟨by simpa using hlow, round_down_to_le _ _, halloc⟩, rfl⟩

theorem alloc_slow_ok (b : Bump) (s : Sys) (l : Layout) (p : Nat) (b2 : Bump)
    (s2 : Sys) (k : Nat) (hma : b.min_align = 2 ^ k) (hma16 : b.min_align ≤ CHUNK_ALIGN)
    (hpot : ∃ j, l.align = 2 ^ j) (hsize : 0 < l.size) (halim : l.align < USIZE_LIMIT)
    (h : alloc_layout_slow b s l = (AllocRes.ok p, b2, s2)) :
    ∃ c, b2.chunks = { c with ptr := p } :: b.chunks ∧
      b2.min_align = b.min_align ∧ b2.allocation_limit = b.allocation_limit ∧
      ChunkWF c ∧ c.data ≤ p ∧ p + l.size ≤ c.ptr ∧ p % l.align = 0 := by
  obtain ⟨j, hj⟩ := hpot
  have hma1 : 0 < b.min_align := by rw [hma]; positivity
  have hal1 : 0 < l.align := by rw [hj]; positivity
  unfold alloc_layout_slow at h
  split at h
  · simp at h
  · rename_i nswf htarget
    simp only [] at h
    have hca0 : 0 < max (max l.align CHUNK_ALIGN) b.min_align := by
      have h16 : (CHUNK_ALIGN : Nat) = 16 := rfl
      omega
    have hcal : max (max l.align CHUNK_ALIGN) b.min_align ≤ USIZE_LIMIT := by
      have h16 : (CHUNK_ALIGN : Nat) = 16 := rfl
      have hU : USIZE_LIMIT = 2 ^ 64 := rfl
      omega
    split at h
    · simp at h
    · simp at h
    · rename_i c1 s3 hnc
      obtain ⟨⟨hwf1, hwf2, hwf3⟩, hptr⟩ :=
        new_chunk_ok b s nswf _ _ c1 s3 hca0 hcal hnc
      have hptrmod : c1.ptr % b.min_align = 0 := by
        rw [hptr]
        exact round_down_to_mod _ _
      split at h
      · simp at h
      · split at h
        · rename_i hnm halign
          split at h
          · simp at h
          · rename_i hov
            have hA : l.size ≤ round_down_to (l.size + (b.min_align - 1))
                b.min_align := by
              have := round_down_to_ge (l.size + (b.min_align - 1)) b.min_align hma1
              omega
            split at h
            · simp at h
            · rename_i hcap
              have hdvdA := round_down_to_dvd (l.size + (b.min_align - 1)) b.min_align
              have hdvdp : b.min_align ∣ (c1.ptr -
                  round_down_to (l.size + (b.min_align - 1)) b.min_align) :=
                Nat.dvd_sub' (Nat.dvd_of_mod_eq_zero hptrmod) hdvdA
              have hdvdla : l.align ∣ b.min_align := by
                rw [hj, hma]
                exact pow_dvd_pow_of_le j k (by rw [← hj, ← hma]; exact halign)
              have hmodres : (c1.ptr -
                  round_down_to (l.size + (b.min_align - 1)) b.min_align) %
                  l.align = 0 :=
                Nat.mod_eq_zero_of_dvd (dvd_trans hdvdla hdvdp)
              split at h
              · rename_i hbad
                exact absurd hmodres (by simpa using hbad)
              · split at h
                · simp at h
                · rename_i hres
                  simp only [Prod.mk.injEq, AllocRes.ok.injEq] at h
                  obtain ⟨hp, hb2, hs2⟩ := h
                  subst hp
                  subst hb2
                  refine ⟨c1, by simp [setPtr], rfl, rfl, ⟨hwf1, hwf2, hwf3⟩,
                    by omega, by omega, hmodres⟩
        · rename_i hnm halign
          split at h
          · simp at h
          · rename_i hov
            have hA : l.size ≤ round_down_to (l.size + (l.align - 1)) l.align := by
              have := round_down_to_ge (l.size + (l.align - 1)) l.align hal1
              omega
            split at h
            · simp at h
            · rename_i hend
              split at h
              · simp at h
              · rename_i hcap
                have hE := round_down_to_le c1.ptr l.align
                have hdvdE := round_down_to_dvd c1.ptr l.align
                have hdvdA := round_down_to_dvd (l.size + (l.align - 1)) l.align
                have hmodres : (round_down_to c1.ptr l.align -
                    round_down_to (l.size + (l.align - 1)) l.align) % l.align = 0 :=
                  Nat.mod_eq_zero_of_dvd (Nat.dvd_sub' hdvdE hdvdA)
                split at h
                · rename_i hbad
                  exact absurd hmodres (by simpa using hbad)
                · split at h
                  · simp at h
                  · rename_i hres
                    simp only [Prod.mk.injEq, AllocRes.ok.injEq] at h
                    obtain ⟨hp, hb2, hs2⟩ := h
                    subst hp
                    subst hb2
                    refine ⟨c1, by simp [setPtr], rfl, rfl, ⟨hwf1, hwf2, hwf3⟩,
                      by omega, by omega, hmodres⟩

theorem alloc_slow_oom (b : Bump) (s : Sys) (l : Layout) (b2 : Bump) (s2 : Sys)
    (hma16 : b.min_align ≤ CHUNK_ALIGN) (halim : l.align < USIZE_LIMIT)
    (h : alloc_layout_slow b s l = (AllocRes.oom, b2, s2)) :
    b2.min_align = b.min_align ∧ b2.allocation_limit = b.allocation_limit ∧
      (b2.chunks = b.chunks ∨ ∃ c, ChunkWF c ∧ b2.chunks = c :: b.chunks) := by
  unfold alloc_layout_slow at h
  split at h
  · simp only [Prod.mk.injEq] at h
    obtain ⟨-, hb2, -⟩ := h
    subst hb2
    exact ⟨rfl, rfl, Or.inl rfl⟩
  · rename_i nswf htarget
    simp only [] at h
    have hca0 : 0 < max (max l.align CHUNK_ALIGN) b.min_align := by
      have h16 : (CHUNK_ALIGN : Nat) = 16 := rfl
      omega
    have hcal : max (max l.align CHUNK_ALIGN) b.min_align ≤ USIZE_LIMIT := by
      have h16 : (CHUNK_ALIGN : Nat) = 16 := rfl
      have hU : USIZE_LIMIT = 2 ^ 64 := rfl
      omega
    split at h
    · rename_i s3 hnc
      simp only [Prod.mk.injEq] at h
      obtain ⟨-, hb2, -⟩ := h
      subst hb2
      exact ⟨rfl, rfl, Or.inl rfl⟩
    · simp at h
    · rename_i c1 s3 hnc
      have hwf := (new_chunk_ok b s nswf _ _ c1 s3 hca0 hcal hnc).1
      repeat' split at h
      all_goals simp only [Prod.mk.injEq] at h
      all_goals obtain ⟨h1, hb2, -⟩ := h
      all_goals cases h1
      all_goals subst hb2
      all_goals exact ⟨rfl, rfl, Or.inr ⟨c1, hwf, rfl⟩⟩

theorem bump_alloc_ok (b : Bump) (s : Sys) (l : Layout) (p : Nat) (b2 : Bump)
    (s2 : Sys) (k : Nat) (hma : b.min_align = 2 ^ k) (hma16 : b.min_align ≤ CHUNK_ALIGN)
    (hgood : goodLayout l)
    (h : bump_alloc_impl b s l = (AllocRes.ok p, b2, s2)) :
    b2.min_align = b.min_align ∧ b2.allocation_limit = b.allocation_limit ∧
      p % l.align = 0 ∧
      ∃ c tl, b2.chunks = { c with ptr := p } :: tl ∧
        (b.chunks = c :: tl ∨ (tl = b.chunks ∧ ChunkWF c)) ∧
        c.data ≤ p ∧ p + l.size ≤ c.ptr := by
  obtain ⟨⟨j, hj⟩, hsize, halim⟩ := hgood
  unfold bump_alloc_impl at h
  rw [if_neg (by omega)] at h
  have hcond : ¬(l.align = 0 ∨ is_power_of_two l.align = false) := by
    rw [hj]
    simp [is_power_of_two_of_pow]
  simp only [] at h
  rw [if_neg hcond] at h
  split at h
  · rename_i q bmid hfe
    simp only [Prod.mk.injEq, AllocRes.ok.injEq] at h
    obtain ⟨hq, hb2, hs⟩ := h
    subst hq
    subst hb2
    obtain ⟨c, tl, hbc, hb2c, hmin, hlim, hd, hsz, hmod⟩ :=
      try_alloc_fast_ok b l q bmid k hma ⟨j, hj⟩ hsize hfe
    exact ⟨hmin, hlim, hmod, c, tl, hb2c, Or.inl hbc, hd, hsz⟩
  · simp at h
  · rename_i q bmid hfe
    obtain ⟨c, hb2c, hmin, hlim, hwf, hd, hsz, hmod⟩ :=
      alloc_slow_ok b s l p b2 s2 k hma hma16 ⟨j, hj⟩ hsize halim h
    exact ⟨hmin, hlim, hmod, c, b.chunks, hb2c, Or.inr ⟨rfl, hwf⟩, hd, hsz⟩

theorem bump_alloc_oom (b : Bump) (s : Sys) (l : Layout) (b2 : Bump) (s2 : Sys)
    (hma16 : b.min_align ≤ CHUNK_ALIGN) (hgood : goodLayout l)
    (h : bump_alloc_impl b s l = (AllocRes.oom, b2, s2)) :
    b2.min_align = b.min_align ∧ b2.allocation_limit = b.allocation_limit ∧
      (b2.chunks = b.chunks ∨ ∃ c, ChunkWF c ∧ b2.chunks = c :: b.chunks) := by
  obtain ⟨⟨j, hj⟩, hsize, halim⟩ := hgood
  unfold bump_alloc_impl at h
  rw [if_neg (by omega)] at h
  have hcond : ¬(l.align = 0 ∨ is_power_of_two l.align = false) := by
    rw [hj]
    simp [is_power_of_two_of_pow]
  simp only [] at h
  rw [if_neg hcond] at h
  split at h
  · simp at h
  · simp at h
  · exact alloc_slow_oom b s l b2 s2 hma16 halim h

theorem chunksDisjoint_of_suffix (b bf : Bump) (pre : List (Nat × Nat))
    (hpre : chainBlocks bf = pre ++ chainBlocks b) (hbf : chunksDisjoint bf) :
    chunksDisjoint b := by
  unfold chunksDisjoint at *
  have h1 : (chainBlocks bf).Pairwise disjoint2 := List.pairwise_map.mpr hbf
  rw [hpre] at h1
  exact List.pairwise_map.mp (List.pairwise_append.mp h1).2.1

theorem runAllocs_blocks_suffix (k : Nat) (ls : List Layout) :
    ∀ (b : Bump) (s : Sys) (bf : Bump) (sf : Sys)
      (out : List (Layout × Option Nat)),
    b.min_align = 2 ^ k → b.min_align ≤ CHUNK_ALIGN →
    (∀ l ∈ ls, goodLayout l) →
    runAllocs b s ls = some (bf, sf, out) →
    ∃ pre, chainBlocks bf = pre ++ chainBlocks b := by
  induction ls with
  | nil =>
    intro b s bf sf out hma hma16 hg hrun
    unfold runAllocs at hrun
    simp only [Option.some.injEq, Prod.mk.injEq] at hrun
    obtain ⟨hbf, -, -⟩ := hrun
    exact ⟨[], by rw [hbf]; simp⟩
  | cons l ls ih =>
    intro b s bf sf out hma hma16 hg hrun
    unfold runAllocs at hrun
    split at hrun
    · rename_i p b' s' hstep
      cases hmap : runAllocs b' s' ls with
      | none => rw [hmap] at hrun; cases hrun
      | some x =>
        obtain ⟨bf1, sf1, rest⟩ := x
        rw [hmap] at hrun
        simp only [Option.map_some', Option.some.injEq, Prod.mk.injEq] at hrun
        obtain ⟨hbf, hsf, hout⟩ := hrun
        subst hbf
        obtain ⟨hmin, hlim, hmod, c, tl, hb2c, hcase, hd, hsz⟩ :=
          bump_alloc_ok b s l p b' s' k hma hma16 (hg l (by simp)) hstep
        obtain ⟨pre, hpre⟩ := ih b' s' bf1 sf1 rest
          (by rw [hmin, hma]) (by rw [hmin]; exact hma16)
          (fun l2 hl2 => hg l2 (by simp [hl2])) hmap
        cases hcase with
        | inl hbc =>
          refine ⟨pre, ?_⟩
          rw [hpre]
          unfold chainBlocks
          rw [hb2c, hbc]
          simp [blockOf]
        | inr hcase2 =>
          refine ⟨pre ++ [blockOf { c with ptr := p }], ?_⟩
          rw [hpre]
          unfold chainBlocks
          rw [hb2c, hcase2.1]
          simp [blockOf]
    · rename_i b' s' hstep
      cases hmap : runAllocs b' s' ls with
      | none => rw [hmap] at hrun; cases hrun
      | some x =>
        obtain ⟨bf1, sf1, rest⟩ := x
        rw [hmap] at hrun
        simp only [Option.map_some', Option.some.injEq, Prod.mk.injEq] at hrun
        obtain ⟨hbf, hsf, hout⟩ := hrun
        subst hbf
        obtain ⟨hmin, hlim, hcase⟩ :=
          bump_alloc_oom b s l b' s' hma16 (hg l (by simp)) hstep
        obtain ⟨pre, hpre⟩ := ih b' s' bf1 sf1 rest
          (by rw [hmin, hma]) (by rw [hmin]; exact hma16)
          (fun l2 hl2 => hg l2 (by simp [hl2])) hmap
        cases hcase with
        | inl hbc =>
          refine ⟨pre, ?_⟩
          rw [hpre]
          unfold chainBlocks
          rw [hbc]
        | inr hcase2 =>
          obtain ⟨c, hwfc, hbc⟩ := hcase2
          refine ⟨pre ++ [blockOf c], ?_⟩
          rw [hpre]
          unfold chainBlocks
          rw [hbc]
          simp [blockOf]
    · cases hrun

theorem range_disj_of_blocks (c c0 : ChunkFooter) (p sz : Nat) (r : Nat × Nat)
    (hwfc : ChunkWF c) (hwfc0 : ChunkWF c0)
    (hd : c.data ≤ p) (hsz : p + sz ≤ c.ptr)
    (hc1 : c0.ptr ≤ r.1) (hc2 : r.1 + r.2 ≤ c0.data + c0.footer_off)
    (hblocks : disjoint2 (blockOf c) (blockOf c0)) :
    disjoint2 r (p, sz) := by
  obtain ⟨r1, r2⟩ := r
  obtain ⟨hw1, hw2, hw3⟩ := hwfc
  obtain ⟨h01, h02, h03⟩ := hwfc0
  have hF : FOOTER_SIZE = 48 := rfl
  unfold disjoint2 blockOf at hblocks
  unfold disjoint2
  simp only at hblocks hc1 hc2 ⊢
  omega

theorem runAllocs_inv (k : Nat) (ls : List Layout) :
    ∀ (b : Bump) (s : Sys) (ranges : List (Nat × Nat)) (bf : Bump) (sf : Sys)
      (out : List (Layout × Option Nat)),
    b.min_align = 2 ^ k → b.min_align ≤ CHUNK_ALIGN →
    (∀ l ∈ ls, goodLayout l) →
    (∀ c ∈ b.chunks, ChunkWF c) →
    (∀ r ∈ ranges, coveredBy b r) →
    List.Pairwise disjoint2 ranges →
    runAllocs b s ls = some (bf, sf, out) →
    chunksDisjoint bf →
    (∀ e ∈ out, ∀ p, e.2 = some p → p % e.1.align = 0) ∧
    List.Pairwise disjoint2 (ranges ++ okRanges out) := by
  induction ls with
  | nil =>
    intro b s ranges bf sf out hma hma16 hg hwf hcov hpw hrun hchain
    unfold runAllocs at hrun
    simp only [Option.some.injEq, Prod.mk.injEq] at hrun
    obtain ⟨-, -, hout⟩ := hrun
    subst hout
    exact ⟨by simp, by simpa [okRanges] using hpw⟩
  | cons l ls ih =>
    intro b s ranges bf sf out hma hma16 hg hwf hcov hpw hrun hchain
    unfold runAllocs at hrun
    split at hrun
    · rename_i p b' s' hstep
      cases hmap : runAllocs b' s' ls with
      | none => rw [hmap] at hrun; cases hrun
      | some x =>
        obtain ⟨bf1, sf1, rest⟩ := x
        rw [hmap] at hrun
        simp only [Option.map_some', Option.some.injEq, Prod.mk.injEq] at hrun
        obtain ⟨hbf, hsf, hout⟩ := hrun
        subst hbf
        subst hout
        obtain ⟨hmin, hlim, hmod, c, tl, hb2c, hcase, hd, hsz⟩ :=
          bump_alloc_ok b s l p b' s' k hma hma16 (hg l (by simp)) hstep
        have hwfc : ChunkWF c := by
          cases hcase with
          | inl hbc => exact hwf c (by rw [hbc]; simp)
          | inr h2 => exact h2.2
        have hwf' : ∀ c2 ∈ b'.chunks, ChunkWF c2 := by
          intro c2 hc2
          rw [hb2c] at hc2
          rcases List.mem_cons.mp hc2 with hh | ht
          · subst hh
            refine ⟨hd, ?_, hwfc.2.2⟩
            show p ≤ c.data + c.footer_off
            obtain ⟨-, w2, -⟩ := hwfc
            omega
          · cases hcase with
            | inl hbc => exact hwf c2 (by rw [hbc]; simp [ht])
            | inr h2 => exact hwf c2 (by rw [← h2.1]; exact ht)
        obtain ⟨pre, hpre⟩ := runAllocs_blocks_suffix k ls b' s' bf1 sf1 rest
          (by rw [hmin, hma]) (by rw [hmin]; exact hma16)
          (fun l2 hl2 => hg l2 (by simp [hl2])) hmap
        have hdisj' : chunksDisjoint b' :=
          chunksDisjoint_of_suffix b' bf1 pre hpre hchain
        have hheadtail : ∀ x ∈ tl,
            disjoint2 (blockOf { c with ptr := p }) (blockOf x) := by
          have h3 := hdisj'
          unfold chunksDisjoint at h3
          rw [hb2c] at h3
          exact (List.pairwise_cons.mp h3).1
        have hcov' : ∀ r ∈ ranges ++ [(p, l.size)], coveredBy b' r := by
          intro r hr
          rcases List.mem_append.mp hr with hr1 | hr2
          · obtain ⟨c0, hc0, hq1, hq2⟩ := hcov r hr1
            cases hcase with
            | inl hbc =>
              rw [hbc] at hc0
              rcases List.mem_cons.mp hc0 with hh | ht
              · subst hh
                refine ⟨{ c0 with ptr := p }, by rw [hb2c]; simp, ?_, hq2⟩
                show p ≤ r.1
                omega
              · exact ⟨c0, by rw [hb2c]; simp [ht], hq1, hq2⟩
            | inr h2 =>
              refine ⟨c0, ?_, hq1, hq2⟩
              rw [hb2c]
              simp only [List.mem_cons]
              right
              rw [h2.1]
              exact hc0
          · have hreq : r = (p, l.size) := by simpa using hr2
            subst hreq
            refine ⟨{ c with ptr := p }, by rw [hb2c]; simp, le_refl p, ?_⟩
            show p + l.size ≤ c.data + c.footer_off
            obtain ⟨-, w2, -⟩ := hwfc
            omega
        have hpw' : List.Pairwise disjoint2 (ranges ++ [(p, l.size)]) := by
          rw [List.pairwise_append]
          refine ⟨hpw, by simp, ?_⟩
          intro r hr x hx
          have hxeq : x = (p, l.size) := by simpa using hx
          subst hxeq
          obtain ⟨c0, hc0, hq1, hq2⟩ := hcov r hr
          have hwfc0 : ChunkWF c0 := hwf c0 hc0
          cases hcase with
          | inl hbc =>
            rw [hbc] at hc0
            rcases List.mem_cons.mp hc0 with hh | ht
            · subst hh
              right
              omega
            · exact range_disj_of_blocks c c0 p l.size r hwfc hwfc0 hd hsz hq1 hq2
                (hheadtail c0 ht)
          | inr h2 =>
            have ht : c0 ∈ tl := by rw [h2.1]; exact hc0
            exact range_disj_of_blocks c c0 p l.size r hwfc hwfc0 hd hsz hq1 hq2
              (hheadtail c0 ht)
        obtain ⟨hal, hpwf⟩ := ih b' s' (ranges ++ [(p, l.size)]) bf1 sf1 rest
          (by rw [hmin, hma]) (by rw [hmin]; exact hma16)
          (fun l2 hl2 => hg l2 (by simp [hl2])) hwf' hcov' hpw' hmap hchain
        constructor
        · intro e he p' hp'
          rcases List.mem_cons.mp he with hh | ht
          · subst hh
            have hpp : p = p' := by simpa using hp'
            subst hpp
            exact hmod
          · exact hal e ht p' hp'
        · have hok : okRanges ((l, some p) :: rest) =
              (p, l.size) :: okRanges rest := rfl
          have hsplit : ranges ++ okRanges ((l, some p) :: rest) =
              (ranges ++ [(p, l.size)]) ++ okRanges rest := by
            rw [hok, List.append_cons]
          rw [hsplit]
          exact hpwf
    · rename_i b' s' hstep
      cases hmap : runAllocs b' s' ls with
      | none => rw [hmap] at hrun; cases hrun
      | some x =>
        obtain ⟨bf1, sf1, rest⟩ := x
        rw [hmap] at hrun
        simp only [Option.map_some', Option.some.injEq, Prod.mk.injEq] at hrun
        obtain ⟨hbf, hsf, hout⟩ := hrun
        subst hbf
        subst hout
        obtain ⟨hmin, hlim, hcase⟩ :=
          bump_alloc_oom b s l b' s' hma16 (hg l (by simp)) hstep
        have hwf' : ∀ c2 ∈ b'.chunks, ChunkWF c2 := by
          intro c2 hc2
          cases hcase with
          | inl hbc => exact hwf c2 (by rw [← hbc]; exact hc2)
          | inr h2 =>
            obtain ⟨c, hwfc, hbc⟩ := h2
            rw [hbc] at hc2
            rcases List.mem_cons.mp hc2 with hh | ht
            · subst hh; exact hwfc
            · exact hwf c2 ht
        have hcov' : ∀ r ∈ ranges, coveredBy b' r := by
          intro r hr
          obtain ⟨c0, hc0, hq1, hq2⟩ := hcov r hr
          cases hcase with
          | inl hbc => exact ⟨c0, by rw [hbc]; exact hc0, hq1, hq2⟩
          | inr h2 =>
            obtain ⟨c, hwfc, hbc⟩ := h2
            exact ⟨c0, by rw [hbc]; simp [hc0], hq1, hq2⟩
        obtain ⟨hal, hpwf⟩ := ih b' s' ranges bf1 sf1 rest
          (by rw [hmin, hma]) (by rw [hmin]; exact hma16)
          (fun l2 hl2 => hg l2 (by simp [hl2])) hwf' hcov' hpw hmap hchain
        constructor
        · intro e he p' hp'
          rcases List.mem_cons.mp he with hh | ht
          · subst hh
            cases hp'
          · exact hal e ht p' hp'
        · have hsplit : okRanges ((l, none) :: rest) = okRanges rest := rfl
          rw [hsplit]
          exact hpwf
    · cases hrun

/-- C4: for every sequence of arena allocations via `bump_alloc_impl` with
power-of-two alignments and positive sizes, on an arena initialized by
`bump_init_min_align`, every successfully returned pointer `p` satisfies
`p % align = 0`, and the returned ranges `[p, p + size)` of the successful
(live) allocations are pairwise disjoint.  The backing allocator is an
oracle; as real memory, the chunk blocks it handed out in the final state
are assumed pairwise disjoint. -/
theorem C4_arena_alignment_disjoint (ma k : Nat) (b0 bf : Bump) (s0 sf : Sys)
    (ls : List Layout) (out : List (Layout × Option Nat))
    (hk : ma = 2 ^ k)
    (hinit : bump_init_min_align ma = some b0)
    (hg : ∀ l ∈ ls, (∃ j, l.align = 2 ^ j) ∧ 0 < l.size ∧ l.align < USIZE_LIMIT)
    (hrun : runAllocs b0 s0 ls = some (bf, sf, out))
    (hchain : chunksDisjoint bf) :
    (∀ e ∈ out, ∀ p, e.2 = some p → p % e.1.align = 0) ∧
      List.Pairwise disjoint2 (okRanges out) := by
  unfold bump_init_min_align at hinit
  split at hinit
  · rename_i hcond
    simp only [Option.some.injEq] at hinit
    have hres := runAllocs_inv k ls b0 s0 [] bf sf out
      (by rw [← hinit, hk]) (by rw [← hinit]; exact hcond.2) hg
      (by rw [← hinit]; simp) (by simp) (by simp) hrun hchain
    exact ⟨hres.1, by simpa using hres.2⟩
  · cases hinit

/-- Witness for C4: two 10-byte allocations on a fresh arena (the oracle
hands out one block at 8192) return aligned, disjoint ranges. -/
theorem C4_arena_alignment_disjoint_witness :
    runAllocs ⟨[], SIZE_MAX, 1⟩ ⟨[some 8192]⟩ [⟨10, 1⟩, ⟨10, 1⟩] =
      some (⟨[⟨8192, 4096, 4048, 12220, 4048⟩], SIZE_MAX, 1⟩, ⟨[]⟩,
        [(⟨10, 1⟩, some 12230), (⟨10, 1⟩, some 12220)]) ∧
      ((∀ e ∈ [((⟨10, 1⟩ : Layout), some 12230), (⟨10, 1⟩, some 12220)],
          ∀ p, e.2 = some p → p % e.1.align = 0) ∧
        List.Pairwise disjoint2
          (okRanges [(⟨10, 1⟩, some 12230), (⟨10, 1⟩, some 12220)])) := by
  refine ⟨by decide, ?_⟩
  refine C4_arena_alignment_disjoint 1 0 ⟨[], SIZE_MAX, 1⟩
    ⟨[⟨8192, 4096, 4048, 12220, 4048⟩], SIZE_MAX, 1⟩ ⟨[some 8192]⟩ ⟨[]⟩
    [⟨10, 1⟩, ⟨10, 1⟩] [(⟨10, 1⟩, some 12230), (⟨10, 1⟩, some 12220)]
    rfl (by decide) ?_ (by decide) ?_
  · intro l hl
    have : l = ⟨10, 1⟩ := by
      rcases List.mem_cons.mp hl with h | h
      · exact h
      · simpa using h
    subst this
    exact ⟨⟨0, rfl⟩, by decide, by decide⟩
  · unfold chunksDisjoint
    simp

theorem slow_target_size_eq (b : Bump) (l : Layout)
    (hnw : 2 * prev_usable_size b < USIZE_LIMIT) :
    slow_target_size b l =
      (if b.allocation_limit ≠ SIZE_MAX then
        if max (max (2 * prev_usable_size b) DEFAULT_CHUNK_SIZE_WITHOUT_FOOTER)
            (slow_requested_size b l) >
            b.allocation_limit - (currentFooter b).allocated_bytes then
          if slow_requested_size b l >
              b.allocation_limit - (currentFooter b).allocated_bytes then none
          else some (slow_requested_size b l)
        else some (max (max (2 * prev_usable_size b)
          DEFAULT_CHUNK_SIZE_WITHOUT_FOOTER) (slow_requested_size b l))
      else some (max (max (2 * prev_usable_size b)
        DEFAULT_CHUNK_SIZE_WITHOUT_FOOTER) (slow_requested_size b l))) := by
  unfold slow_target_size
  simp only []
  have hd : (if 2 * prev_usable_size b ≥ USIZE_LIMIT then SIZE_MAX
      else 2 * prev_usable_size b) = 2 * prev_usable_size b := by
    rw [if_neg (by omega)]
  rw [hd]
  have hs1 : (if 2 * prev_usable_size b < DEFAULT_CHUNK_SIZE_WITHOUT_FOOTER then
      DEFAULT_CHUNK_SIZE_WITHOUT_FOOTER else 2 * prev_usable_size b) =
      max (2 * prev_usable_size b) DEFAULT_CHUNK_SIZE_WITHOUT_FOOTER := by
    split_ifs with h <;> omega
  rw [hs1]
  have hs2 : (if max (2 * prev_usable_size b) DEFAULT_CHUNK_SIZE_WITHOUT_FOOTER <
      slow_requested_size b l then slow_requested_size b l
      else max (2 * prev_usable_size b) DEFAULT_CHUNK_SIZE_WITHOUT_FOOTER) =
      max (max (2 * prev_usable_size b) DEFAULT_CHUNK_SIZE_WITHOUT_FOOTER)
        (slow_requested_size b l) := by
    split_ifs with h <;> omega
  rw [hs2]
  have hrem : (if b.allocation_limit > (currentFooter b).allocated_bytes then
      b.allocation_limit - (currentFooter b).allocated_bytes else 0) =
      b.allocation_limit - (currentFooter b).allocated_bytes := by
    split_ifs with h <;> omega
  rw [hrem]

/-- C5: when the fast path fails and a fresh chunk is sized, the target
usable size is max(twice the previous chunk's usable size, the default
chunk size), raised to the immediate request (the size rounded up to the
effective alignment); with an allocation_limit set, a target above the
remaining budget is shrunk to exactly the request, and the sizing (hence
the allocation) fails if even the request exceeds the budget.  The
overflow hypothesis keeps the saturating usize doubling exact. -/
theorem C5_new_chunk_sizing (b : Bump) (l : Layout) (s : Sys)
    (hnw : 2 * prev_usable_size b < USIZE_LIMIT) :
    ((b.allocation_limit = SIZE_MAX ∨
        max (max (2 * prev_usable_size b) DEFAULT_CHUNK_SIZE_WITHOUT_FOOTER)
          (slow_requested_size b l) ≤
          b.allocation_limit - (currentFooter b).allocated_bytes) →
      slow_target_size b l = some (max (max (2 * prev_usable_size b)
        DEFAULT_CHUNK_SIZE_WITHOUT_FOOTER) (slow_requested_size b l))) ∧
    (b.allocation_limit ≠ SIZE_MAX →
      max (max (2 * prev_usable_size b) DEFAULT_CHUNK_SIZE_WITHOUT_FOOTER)
          (slow_requested_size b l) >
        b.allocation_limit - (currentFooter b).allocated_bytes →
      slow_requested_size b l ≤
        b.allocation_limit - (currentFooter b).allocated_bytes →
      slow_target_size b l = some (slow_requested_size b l)) ∧
    (b.allocation_limit ≠ SIZE_MAX →
      slow_requested_size b l >
        b.allocation_limit - (currentFooter b).allocated_bytes →
      slow_target_size b l = none) ∧
    (slow_target_size b l = none →
      alloc_layout_slow b s l = (AllocRes.oom, b, s)) := by
  have hchar := slow_target_size_eq b l hnw
  refine ⟨?_, ?_, ?_, ?_⟩
  · intro hc
    rw [hchar]
    rcases hc with hc | hc
    · rw [if_neg (by simp [hc])]
    · by_cases hlim : b.allocation_limit ≠ SIZE_MAX
      · rw [if_pos hlim, if_neg (by omega)]
      · rw [if_neg hlim]
  · intro hlim hover hfit
    rw [hchar, if_pos hlim, if_pos hover, if_neg (by omega)]
  · intro hlim hover
    rw [hchar, if_pos hlim, if_pos (by omega), if_pos hover]
  · intro hnone
    unfold alloc_layout_slow
    rw [hnone]

/-- Witness for C5: an arena whose 4096-byte chunk has 4048 usable bytes
and 4048 already-allocated bytes under a 5000-byte limit: the doubled
target 8096 exceeds the remaining budget 952, so the chunk is shrunk to
exactly the 8-byte request. -/
theorem C5_new_chunk_sizing_witness :
    2 * prev_usable_size ⟨[⟨8192, 4096, 4048, 12224, 4048⟩], 5000, 1⟩ <
      USIZE_LIMIT ∧
    slow_target_size ⟨[⟨8192, 4096, 4048, 12224, 4048⟩], 5000, 1⟩ ⟨8, 1⟩ =
      some (slow_requested_size ⟨[⟨8192, 4096, 4048, 12224, 4048⟩], 5000, 1⟩
        ⟨8, 1⟩) := by
  refine ⟨by decide, ?_⟩
  exact (C5_new_chunk_sizing ⟨[⟨8192, 4096, 4048, 12224, 4048⟩], 5000, 1⟩
    ⟨8, 1⟩ ⟨[]⟩ (by decide)).2.1 (by decide) (by decide) (by decide)

/-- Counterexample to C6: `bump_alloc_impl` called with the
non-power-of-two alignment 3 does not fail: it serves the request,
returning an ordinary successful allocation. -/
theorem C6_counterexample :
    is_power_of_two 3 = false ∧
    (bump_alloc_impl ⟨[⟨8192, 4096, 4048, 12224, 4048⟩], SIZE_MAX, 1⟩ ⟨[]⟩
      ⟨8, 3⟩).1 = AllocRes.ok 12216 := by
  decide

/-- C6 (amended): a non-power-of-two alignment is a contract violation
for the layout constructor (`layout_from_size_align` fails), but
`bump_alloc_impl` itself does not fail fast on such a layout: for a
nonzero size it coerces the alignment to 1 and serves the request like
an ordinary allocation. -/
theorem C6_alignment_contract (b : Bump) (s : Sys) (size align : Nat)
    (hnp : is_power_of_two align = false) (hsz : 0 < size) :
    layout_from_size_align size align = none ∧
    bump_alloc_impl b s ⟨size, align⟩ = bump_alloc_impl b s ⟨size, 1⟩ := by
  constructor
  · unfold layout_from_size_align
    rw [if_neg (by simp [hnp])]
  · unfold bump_alloc_impl
    rw [if_neg (show ¬((⟨size, align⟩ : Layout).size = 0) from by
      show ¬(size = 0); omega)]
    rw [if_neg (show ¬((⟨size, 1⟩ : Layout).size = 0) from by
      show ¬(size = 0); omega)]
    rw [if_pos (show (⟨size, align⟩ : Layout).align = 0 ∨
      is_power_of_two (⟨size, align⟩ : Layout).align = false from Or.inr hnp)]
    rw [if_neg (show ¬((⟨size, 1⟩ : Layout).align = 0 ∨
        is_power_of_two (⟨size, 1⟩ : Layout).align = false) from by
      show ¬((1 : Nat) = 0 ∨ is_power_of_two 1 = false)
      decide)]

/-- Witness for C6 (amended): alignment 6 is rejected by the layout
constructor, yet the allocator serves the 8-byte request as if the
alignment were 1. -/
theorem C6_alignment_contract_witness :
    is_power_of_two 6 = false ∧ 0 < 8 ∧
    (layout_from_size_align 8 6 = none ∧
      bump_alloc_impl ⟨[⟨8192, 4096, 4048, 12224, 4048⟩], SIZE_MAX, 1⟩ ⟨[]⟩
          ⟨8, 6⟩ =
        bump_alloc_impl ⟨[⟨8192, 4096, 4048, 12224, 4048⟩], SIZE_MAX, 1⟩ ⟨[]⟩
          ⟨8, 1⟩) :=
  ⟨by decide, by decide,
    C6_alignment_contract ⟨[⟨8192, 4096, 4048, 12224, 4048⟩], SIZE_MAX, 1⟩
      ⟨[]⟩ 8 6 (by decide) (by decide)⟩

/-- C10: reallocating with a NULL old pointer is exactly a plain
allocation of the new layout — same result, same arena and system state —
and copies no bytes. -/
theorem C10_realloc_null_is_alloc (b : Bump) (s : Sys)
    (old_layout new_layout : Layout) :
    bump_realloc_impl b s none old_layout new_layout =
      ((bump_alloc_impl b s new_layout).1,
        (bump_alloc_impl b s new_layout).2.1,
        (bump_alloc_impl b s new_layout).2.2, none) := rfl

theorem try_alloc_fast_succeeds (b : Bump) (l : Layout)
    (hmod : (currentFooter b).ptr % b.min_align = 0)
    (hle : l.align ≤ b.min_align)
    (hov : l.size + (b.min_align - 1) < USIZE_LIMIT)
    (hfit : round_down_to (l.size + (b.min_align - 1)) b.min_align ≤
      (currentFooter b).ptr - (currentFooter b).data) :
    try_alloc_layout_fast b l =
      (AllocRes.ok ((currentFooter b).ptr -
        round_down_to (l.size + (b.min_align - 1)) b.min_align),
       setPtr b ((currentFooter b).ptr -
        round_down_to (l.size + (b.min_align - 1)) b.min_align)) := by
  unfold try_alloc_layout_fast
  simp only []
  rw [if_neg (not_not_intro (Or.inr hmod))]
  rw [if_pos hle]
  rw [if_neg (show ¬(l.size + (b.min_align - 1) ≥ USIZE_LIMIT) from by omega)]
  rw [if_neg (show ¬(round_down_to (l.size + (b.min_align - 1)) b.min_align >
    (currentFooter b).ptr - (currentFooter b).data) from by omega)]

/-- C9: on an arena whose current chunk is real, `bump_reset` keeps only
that chunk (the rest of the chain is released to the backing allocator),
rewinds its cursor to the footer address rounded down to `min_align`, and
sets `allocated_bytes` to the kept chunk's own usable size; a subsequent
allocation that fits the kept chunk succeeds without acquiring a new
chunk (the backing-allocator oracle is untouched and the chunk list keeps
only the rewound chunk, with just its cursor moved). -/
theorem C9_reset_keeps_current (b : Bump) (c : ChunkFooter)
    (rest : List ChunkFooter) (k : Nat)
    (hchunks : b.chunks = c :: rest) (hk : b.min_align = 2 ^ k) :
    (bump_reset b).chunks = [{ c with
        ptr := round_down_to (c.data + c.footer_off) b.min_align,
        allocated_bytes := c.footer_off }] ∧
    (bump_reset b).min_align = b.min_align ∧
    (bump_reset b).allocation_limit = b.allocation_limit ∧
    (∀ (s : Sys) (l : Layout) (j : Nat), l.align = 2 ^ j → 0 < l.size →
      l.align ≤ b.min_align →
      l.size + (b.min_align - 1) < USIZE_LIMIT →
      round_down_to (l.size + (b.min_align - 1)) b.min_align ≤
        round_down_to (c.data + c.footer_off) b.min_align - c.data →
      ∃ p, bump_alloc_impl (bump_reset b) s l =
        (AllocRes.ok p, setPtr (bump_reset b) p, s)) := by
  have hreset : bump_reset b = { b with chunks := [{ c with
      ptr := round_down_to (c.data + c.footer_off) b.min_align,
      allocated_bytes := c.footer_off }] } := by
    unfold bump_reset
    rw [hchunks]
  have hcur : currentFooter (bump_reset b) = { c with
      ptr := round_down_to (c.data + c.footer_off) b.min_align,
      allocated_bytes := c.footer_off } := by
    rw [hreset]
    rfl
  have hma : (bump_reset b).min_align = b.min_align := by rw [hreset]
  refine ⟨by rw [hreset], hma, by rw [hreset], ?_⟩
  intro s l j hj hsz hle hov hfit
  refine ⟨(currentFooter (bump_reset b)).ptr -
    round_down_to (l.size + ((bump_reset b).min_align - 1))
      (bump_reset b).min_align, ?_⟩
  have hfast := try_alloc_fast_succeeds (bump_reset b) l
    (by rw [hcur, hma]; exact round_down_to_mod _ _)
    (by rw [hma]; exact hle)
    (by rw [hma]; exact hov)
    (by rw [hma, hcur]; exact hfit)
  unfold bump_alloc_impl
  rw [if_neg (by omega)]
  rw [if_neg (show ¬(l.align = 0 ∨ is_power_of_two l.align = false) from by
    rw [hj]
    simp [is_power_of_two_of_pow])]
  simp only []
  rw [hfast]

/-- Witness for C9: resetting a two-chunk arena keeps only the newest
chunk, rewound, and a following 10-byte allocation succeeds in place. -/
theorem C9_reset_keeps_current_witness :
    (bump_reset ⟨[⟨8192, 4096, 4048, 12214, 4048⟩,
        ⟨20000, 4096, 4048, 20100, 8096⟩], SIZE_MAX, 1⟩).chunks =
      [⟨8192, 4096, 4048, round_down_to (8192 + 4048) 1, 4048⟩] ∧
    (bump_reset ⟨[⟨8192, 4096, 4048, 12214, 4048⟩,
        ⟨20000, 4096, 4048, 20100, 8096⟩], SIZE_MAX, 1⟩).min_align = 1 ∧
    (bump_reset ⟨[⟨8192, 4096, 4048, 12214, 4048⟩,
        ⟨20000, 4096, 4048, 20100, 8096⟩], SIZE_MAX, 1⟩).allocation_limit =
      SIZE_MAX ∧
    ∃ p, bump_alloc_impl (bump_reset ⟨[⟨8192, 4096, 4048, 12214, 4048⟩,
        ⟨20000, 4096, 4048, 20100, 8096⟩], SIZE_MAX, 1⟩) ⟨[]⟩ ⟨10, 1⟩ =
      (AllocRes.ok p,
       setPtr (bump_reset ⟨[⟨8192, 4096, 4048, 12214, 4048⟩,
        ⟨20000, 4096, 4048, 20100, 8096⟩], SIZE_MAX, 1⟩) p, ⟨[]⟩) := by
  obtain ⟨h1, h2, h3, h4⟩ := C9_reset_keeps_current
    ⟨[⟨8192, 4096, 4048, 12214, 4048⟩, ⟨20000, 4096, 4048, 20100, 8096⟩],
      SIZE_MAX, 1⟩
    ⟨8192, 4096, 4048, 12214, 4048⟩ [⟨20000, 4096, 4048, 20100, 8096⟩] 0
    rfl rfl
  exact ⟨h1, h2, h3,
    h4 ⟨[]⟩ ⟨10, 1⟩ 0 rfl (by decide) (by decide) (by decide) (by decide)⟩

end KxBump
